import Mathlib

/-!
Shallow embedding of the FAISS search handler of the image-search-app
repository (`python-search-service/search_handler.py`), together with
theorems checking the natural-language specification against it.

Modelling conventions:

* Machine floats are idealized as exact rationals (`ℚ`); vectors are
  `List ℚ` rows.
* The filesystem holding the serialized index artifacts is a partial map
  `Key → Option FaissIndex`, where `Key = (user_id, folder_id)`.
  `_get_folder_path` writes each scope's artifact to the canonical path
  `base/{user_id}/{folder_id}.faiss`, which is injective in the pair
  `(user_id, folder_id)`, so artifacts are keyed directly by that pair.
* Python dicts whose length is observed (`self._index_cache`) are
  association lists; `self._cache_access_order` is a plain list of keys.
* External libraries are modelled at their interface:
  `np.linalg.norm(·, axis=1)` (a nonnegative per-row norm) and
  `EmbeddingService.embed_text` (the CLIP model) are oracle fields of
  `ExtDeps`; the `faiss` index itself is an explicit list of
  `(id, vector)` pairs with exact inner-product search.
* Python exceptions: a fallible method returns an `Except Err` result
  *paired with* the post-state, since in Python mutations of `self`
  performed before a `raise` persist.
-/

/-- Errors raised by the handler: `ValueError` (batch length mismatch)
and `FileNotFoundError` (missing index artifact). -/
inductive Err where
  | valueError : Err
  | fileNotFound : Err
deriving DecidableEq, Repr

/-- A scope key `(user_id, folder_id)`; `_get_folder_path` maps it
injectively to the on-disk artifact path `base/{user}/{folder}.faiss`. -/
abbrev Key : Type := ℤ × ℤ

/-- `faiss.IndexIDMap(faiss.IndexFlatIP(dim))`: an inner-product index
whose stored entries are `(external_id, vector)` pairs in insertion
order. -/
structure FaissIndex where
  dim : ℕ
  entries : List (ℤ × List ℚ)
deriving DecidableEq

/-- `index.ntotal`: the number of stored vectors. -/
def FaissIndex.ntotal (idx : FaissIndex) : ℕ := idx.entries.length

/-- `index.add_with_ids(rows, ids)`: appends the `(id, row)` pairs in
order. -/
def FaissIndex.add_with_ids (idx : FaissIndex) (rows : List (List ℚ))
    (ids : List ℤ) : FaissIndex :=
  { idx with entries := idx.entries ++ ids.zip rows }

/-- Inner product of two rows (the similarity score used by
`IndexFlatIP`). -/
def dot (u v : List ℚ) : ℚ := (List.zipWith (· * ·) u v).sum

/-- Score-descending comparison used to model the order in which
`index.search` returns its hits. -/
def hitGE (a b : ℚ × ℤ) : Prop := b.1 ≤ a.1

instance : DecidableRel hitGE := fun a b =>
  inferInstanceAs (Decidable (b.1 ≤ a.1))

/-- `index.search(q, n)`: the `n` stored entries with the largest inner
product against `q`, as `(score, id)` pairs sorted descending by score
(ties in canonical stable order; faiss leaves tie order unspecified). -/
def FaissIndex.searchTop (idx : FaissIndex) (q : List ℚ) (n : ℕ) :
    List (ℚ × ℤ) :=
  ((idx.entries.map (fun e => (dot q e.2, e.1))).insertionSort hitGE).take n

/-- Association-list lookup (Python `dict.get` / `in`). -/
def alookup {κ V : Type} [DecidableEq κ] : List (κ × V) → κ → Option V
  | [], _ => none
  | p :: t, q => if p.1 = q then some p.2 else alookup t q

/-- Association-list delete of the (first) entry with the given key
(Python `del d[k]`; with unique keys, the entry). -/
def aerase {κ V : Type} [DecidableEq κ] : List (κ × V) → κ → List (κ × V)
  | [], _ => []
  | p :: t, q => if p.1 = q then t else p :: aerase t q

/-- The external numerical dependencies of the handler, modelled at
their interfaces: `nrm` is `np.linalg.norm` applied to one row
(nonnegative; zero exactly on zero rows), and `embedText` is
`EmbeddingService.embed_text` (the CLIP text encoder). -/
structure ExtDeps where
  nrm : List ℚ → ℚ
  embedText : String → List ℚ

/-- The epsilon substituted for a zero norm: `norms[norms == 0] = 1e-10`. -/
def normEps : ℚ := 1 / 10 ^ 10

/-- The per-row divisor after the zero-norm fixup. -/
def fixNorm (n : ℚ) : ℚ := if n = 0 then normEps else n

namespace SearchHandler

/-- One row of `_normalize`: divide the row by its (fixed-up) norm. -/
def normalizeRow (E : ExtDeps) (r : List ℚ) : List ℚ :=
  r.map (fun x => x / fixNorm (E.nrm r))

/-- `SearchHandler._normalize`: row-wise L2 normalization of a matrix,
with zero norms replaced by `1e-10` before dividing. -/
def _normalize (E : ExtDeps) (rows : List (List ℚ)) : List (List ℚ) :=
  rows.map (normalizeRow E)

/-- The mutable state of a `SearchHandler` instance plus the filesystem
it works against: `disk` is the artifact store under `base_folder`,
`cache` is `self._index_cache`, `order` is `self._cache_access_order`,
`cacheSize` is `self._cache_size` (default 50). -/
structure HandlerState where
  disk : Key → Option FaissIndex
  cache : List (Key × FaissIndex)
  order : List Key
  cacheSize : ℕ

/-- `SearchHandler._get_folder_path`: the canonical artifact key of a
scope (the path `base/{user_id}/{folder_id}.faiss`). -/
def _get_folder_path (user_id folder_id : ℤ) : Key := (user_id, folder_id)

/-- Point update of the artifact store (`faiss.write_index`). -/
def diskWrite (d : Key → Option FaissIndex) (k : Key) (idx : FaissIndex) :
    Key → Option FaissIndex :=
  fun k' => if k' = k then some idx else d k'

/-- Point removal from the artifact store (`os.remove`). -/
def diskErase (d : Key → Option FaissIndex) (k : Key) :
    Key → Option FaissIndex :=
  fun k' => if k' = k then none else d k'

/-- `SearchHandler._invalidate_cache`: drop the scope's cache entry (and
its slot in the access order) if present. -/
def _invalidate_cache (st : HandlerState) (user_id folder_id : ℤ) :
    HandlerState :=
  let key := _get_folder_path user_id folder_id
  if (alookup st.cache key).isSome then
    { st with cache := aerase st.cache key, order := st.order.erase key }
  else st

/-- `SearchHandler._load_index`: return the cached index (moving the key
to most-recently-used), or load it from disk, insert it into the cache
and evict the least-recently-used key when over capacity; raises
`FileNotFoundError` when the artifact is missing. -/
def _load_index (st : HandlerState) (user_id folder_id : ℤ) :
    Except Err FaissIndex × HandlerState :=
  let key := _get_folder_path user_id folder_id
  match alookup st.cache key with
  | some idx =>
      (.ok idx, { st with order := st.order.erase key ++ [key] })
  | none =>
      match st.disk key with
      | none => (.error .fileNotFound, st)
      | some idx =>
          let cache1 := (key, idx) :: st.cache
          let order1 := st.order ++ [key]
          if cache1.length > st.cacheSize then
            (.ok idx, { st with cache := aerase cache1 order1.headI,
                                order := order1.tail })
          else
            (.ok idx, { st with cache := cache1, order := order1 })

/-- `SearchHandler.create_faiss_index`: write a fresh empty
`IndexIDMap(IndexFlatIP(dimension))` artifact at the scope's canonical
path (no existence check: an existing artifact is overwritten). -/
def create_faiss_index (st : HandlerState) (user_id folder_id : ℤ)
    (dimension : ℕ) : HandlerState :=
  let key := _get_folder_path user_id folder_id
  { st with disk := diskWrite st.disk key ⟨dimension, []⟩ }

/-- `SearchHandler.add_vector_to_faiss`: raise `FileNotFoundError` if the
scope has no artifact; otherwise read the index, append the normalized
vector under `vector_id`, write it back, and invalidate the cache. -/
def add_vector_to_faiss (E : ExtDeps) (st : HandlerState)
    (user_id folder_id : ℤ) (vector : List ℚ) (vector_id : ℤ) :
    Except Err Unit × HandlerState :=
  let key := _get_folder_path user_id folder_id
  match st.disk key with
  | none => (.error .fileNotFound, st)
  | some idx =>
      let rows := _normalize E [vector]
      let idx1 := idx.add_with_ids rows [vector_id]
      let st1 := { st with disk := diskWrite st.disk key idx1 }
      (.ok (), _invalidate_cache st1 user_id folder_id)

/-- `SearchHandler.add_vectors_batch`: raise `ValueError` on a
vectors/ids length mismatch; return as a no-op on an empty batch; raise
`FileNotFoundError` if the scope has no artifact; otherwise append all
normalized vectors in one read-modify-write and invalidate the cache. -/
def add_vectors_batch (E : ExtDeps) (st : HandlerState)
    (user_id folder_id : ℤ) (vectors : List (List ℚ))
    (vector_ids : List ℤ) : Except Err Unit × HandlerState :=
  if vectors.length ≠ vector_ids.length then (.error .valueError, st)
  else if vectors.length = 0 then (.ok (), st)
  else
    let key := _get_folder_path user_id folder_id
    match st.disk key with
    | none => (.error .fileNotFound, st)
    | some idx =>
        let rows := _normalize E vectors
        let idx1 := idx.add_with_ids rows vector_ids
        let st1 := { st with disk := diskWrite st.disk key idx1 }
        (.ok (), _invalidate_cache st1 user_id folder_id)

/-- `SearchHandler.delete_faiss_index`: invalidate the cache *first*,
then remove the artifact if it exists (returning `True`) or raise
`FileNotFoundError` (with the cache entry already gone). -/
def delete_faiss_index (st : HandlerState) (user_id folder_id : ℤ) :
    Except Err Bool × HandlerState :=
  let st1 := _invalidate_cache st user_id folder_id
  let key := _get_folder_path user_id folder_id
  match st1.disk key with
  | some _ => (.ok true, { st1 with disk := diskErase st1.disk key })
  | none => (.error .fileNotFound, st1)

end SearchHandler

/-- A merge candidate `(distance, image_id, folder_id)` — the Python
tuple pushed onto the heap in `search_with_ownership`. -/
abbrev Cand : Type := ℚ × ℤ × ℤ

/-- Python's tuple comparison on candidates: lexicographic on
(score, image id, folder id). This is the order `heapq` uses. -/
def candLE (a b : Cand) : Prop :=
  a.1 < b.1 ∨ (a.1 = b.1 ∧
    (a.2.1 < b.2.1 ∨ (a.2.1 = b.2.1 ∧ a.2.2 ≤ b.2.2)))

instance : DecidableRel candLE := fun a b =>
  inferInstanceAs (Decidable (a.1 < b.1 ∨ (a.1 = b.1 ∧
    (a.2.1 < b.2.1 ∨ (a.2.1 = b.2.1 ∧ a.2.2 ≤ b.2.2)))))

/-- The reversed (descending) tuple order, used to read the top of the
merged results. -/
def candGE (a b : Cand) : Prop := candLE b a

instance : DecidableRel candGE := fun a b =>
  inferInstanceAs (Decidable (candLE b a))

/-- Score-descending comparison on candidates — the key order of
`heapq.nlargest(k, heap, key=lambda x: x[0])` and the spec's words
"fully sorting them descending by score" (ties left in list order, as a
stable sort does). -/
def scoreGE (a b : Cand) : Prop := b.1 ≤ a.1

instance : DecidableRel scoreGE := fun a b =>
  inferInstanceAs (Decidable (b.1 ≤ a.1))

/-- Python's strict tuple comparison `<` on candidates (the comparison
`heapq`'s sift routines perform). -/
def candLT (a b : Cand) : Prop :=
  a.1 < b.1 ∨ (a.1 = b.1 ∧
    (a.2.1 < b.2.1 ∨ (a.2.1 = b.2.1 ∧ a.2.2 < b.2.2)))

instance : DecidableRel candLT := fun a b =>
  inferInstanceAs (Decidable (a.1 < b.1 ∨ (a.1 = b.1 ∧
    (a.2.1 < b.2.1 ∨ (a.2.1 = b.2.1 ∧ a.2.2 < b.2.2)))))

namespace SearchHandler

/-- Index of the parent of heap-array position `i`:
`(i - 1) >> 1` in CPython's heapq. -/
def parentIdx (i : ℕ) : ℕ := (i - 1) / 2

theorem parentIdx_lt (i : ℕ) (h : 0 < i) : parentIdx i < i := by
  unfold parentIdx
  omega

/-- The binary min-heap shape invariant of a heap array: every non-root
entry is `>=` (in Python tuple order) its parent. -/
def IsHeap (l : List Cand) : Prop :=
  ∀ i : ℕ, 0 < i → i < l.length →
    candLE (l.getD (parentIdx i) default) (l.getD i default)

/-- The `while pos > startpos` loop of CPython's
`heapq._siftdown(heap, startpos, pos)`: bubble `newitem` toward the
root, shifting larger parents down, and store it at its final
position. -/
def siftdownLoop (newitem : Cand) (startpos : ℕ) (pos : ℕ)
    (heap : List Cand) : List Cand :=
  if _h : startpos < pos then
    if candLT newitem (heap.getD (parentIdx pos) default) then
      siftdownLoop newitem startpos (parentIdx pos)
        (heap.set pos (heap.getD (parentIdx pos) default))
    else heap.set pos newitem
  else heap.set pos newitem
termination_by pos
decreasing_by exact parentIdx_lt pos (by omega)

/-- CPython `heapq._siftdown(heap, startpos, pos)`:
`newitem = heap[pos]`, then the bubble-up loop. -/
def _siftdown (heap : List Cand) (startpos pos : ℕ) : List Cand :=
  siftdownLoop (heap.getD pos default) startpos pos heap

/-- CPython `heapq.heappush(heap, item)`: append, then sift down from
the new last position toward the root. -/
def heappush (heap : List Cand) (item : Cand) : List Cand :=
  _siftdown (heap ++ [item]) 0 heap.length

/-- The child-promotion loop of CPython's `heapq._siftup(heap, pos)`:
repeatedly move the smaller child up into `pos` until `pos` has no
children; returns the array and the final (childless) position. -/
def siftupLoop (heap : List Cand) (pos : ℕ) : List Cand × ℕ :=
  if _h : 2 * pos + 1 < heap.length then
    if _hr : 2 * pos + 2 < heap.length ∧
        ¬ candLT (heap.getD (2 * pos + 1) default)
          (heap.getD (2 * pos + 2) default) then
      siftupLoop (heap.set pos (heap.getD (2 * pos + 2) default))
        (2 * pos + 2)
    else
      siftupLoop (heap.set pos (heap.getD (2 * pos + 1) default))
        (2 * pos + 1)
  else (heap, pos)
termination_by heap.length - pos
decreasing_by
  · simp only [List.length_set]; omega
  · simp only [List.length_set]; omega

/-- CPython `heapq._siftup(heap, pos)`: save `newitem = heap[pos]`,
promote smaller children up to a leaf, place `newitem` there, and sift
it back down toward `pos`. -/
def _siftup (heap : List Cand) (pos : ℕ) : List Cand :=
  let newitem := heap.getD pos default
  let hp := siftupLoop heap pos
  _siftdown (hp.1.set hp.2 newitem) pos hp.2

/-- CPython `heapq.heappushpop(heap, item)`: when the heap is nonempty
and its root is `<` the new item, replace the root and restore the heap
shape with `_siftup` (the popped root, which `search_with_ownership`
discards, is dropped here); otherwise the heap is unchanged. -/
def heappushpop (heap : List Cand) (item : Cand) : List Cand :=
  if heap ≠ [] ∧ candLT heap.headI item then _siftup (heap.set 0 item) 0
  else heap

/-- The per-candidate push of `search_with_ownership`'s inner loop:
`heapq.heappush` while the heap is under capacity `k`, otherwise
`heapq.heappushpop`. -/
def pushBounded (k : ℕ) (heap : List Cand) (x : Cand) : List Cand :=
  if heap.length < k then heappush heap x else heappushpop heap x

/-- `heapq.nlargest(k, heap, key=lambda x: x[0])`: documented (and
implemented, via the decorate-with-position trick) as the stable sort
of the heap's array descending by the key — the score alone — truncated
to `k`. -/
def nlargestModel (k : ℕ) (l : List Cand) : List Cand :=
  (l.insertionSort scoreGE).take k

/-- Proof-level multiset model of the bounded heap: the heap identified
with its sorted-ascending (full tuple order) element list, `heappush`
with `orderedInsert`, `heappushpop` with insert-then-drop-minimum. Used
only to reason about the contents of the real `pushBounded` above; it
is not part of the embedding of the source. -/
def pushBoundedSorted (k : ℕ) (heap : List Cand) (x : Cand) : List Cand :=
  if heap.length < k then heap.orderedInsert candLE x
  else (heap.orderedInsert candLE x).tail

/-- One iteration of the folder loop of `search_with_ownership`: resolve
the owner (skip if unknown), check the artifact exists (skip if not),
load the index through the cache, and collect that folder's
`(distance, image_id, folder_id)` candidates — `min(k, ntotal)` hits,
tagged with the folder id. Returns the candidates and the post-state. -/
def folderCands (owners : List (ℤ × ℤ)) (qv : List ℚ) (k : ℕ)
    (st : HandlerState) (folder_id : ℤ) : List Cand × HandlerState :=
  match alookup owners folder_id with
  | none => ([], st)
  | some owner =>
      let key := _get_folder_path owner folder_id
      if (st.disk key).isSome then
        match _load_index st owner folder_id with
        | (.error _, st') => ([], st')
        | (.ok idx, st') =>
            let localK := min k idx.ntotal
            if localK = 0 then ([], st')
            else
              ((idx.searchTop qv localK).map (fun p => (p.1, p.2, folder_id)),
               st')
      else ([], st)

/-- The folder loop of `search_with_ownership`, pushing each candidate
onto the bounded heap as it is produced. -/
def searchFold (owners : List (ℤ × ℤ)) (qv : List ℚ) (k : ℕ) :
    List ℤ → List Cand × HandlerState → List Cand × HandlerState
  | [], acc => acc
  | fid :: rest, (heap, st) =>
      let (cs, st') := folderCands owners qv k st fid
      searchFold owners qv k rest (cs.foldl (pushBounded k) heap, st')

/-- The same folder loop, collecting the per-scope candidates in
iteration order instead of pushing them onto the heap (the
"concatenation of all per-scope candidates" the spec compares with). -/
def collectCands (owners : List (ℤ × ℤ)) (qv : List ℚ) (k : ℕ) :
    List ℤ → List Cand × HandlerState → List Cand × HandlerState
  | [], acc => acc
  | fid :: rest, (acc, st) =>
      let (cs, st') := folderCands owners qv k st fid
      collectCands owners qv k rest (acc ++ cs, st')

/-- The concatenation of all per-scope candidate lists a given search
would produce, in iteration order. -/
def allCandidates (E : ExtDeps) (st : HandlerState) (query : String)
    (folder_ids : List ℤ) (owners : List (ℤ × ℤ)) (k : ℕ) : List Cand :=
  let qv := ((_normalize E [E.embedText query]).headI)
  (collectCands owners qv k folder_ids ([], st)).1

/-- The `(distances, indices, folder_ids)` triple returned by
`search_with_ownership` (each a single-row matrix, as in the source). -/
abbrev SearchResult : Type := List (List ℚ) × List (List ℤ) × List (List ℤ)

/-- Project the merged top list into the returned triple. -/
def toResult (top : List Cand) : SearchResult :=
  ([top.map (fun r => r.1)], [top.map (fun r => r.2.1)],
   [top.map (fun r => r.2.2)])

/-- `SearchHandler.search_with_ownership`: embed and normalize the
query, walk the requested folders (skipping unresolvable owners and
missing artifacts), keep a global top-`k` in a bounded min-heap, and
return the drained heap sorted descending together with the originating
folder ids. The post-state records the cache activity of the loads. -/
def search_with_ownership (E : ExtDeps) (st : HandlerState)
    (query : String) (folder_ids : List ℤ) (folder_owner_map : List (ℤ × ℤ))
    (k : ℕ) : SearchResult × HandlerState :=
  let qv := ((_normalize E [E.embedText query]).headI)
  let (heap, st') := searchFold folder_owner_map qv k folder_ids ([], st)
  (toResult (nlargestModel k heap), st')

end SearchHandler

/-! ### Order theory of the candidate tuple comparison -/

theorem candLE_total (a b : Cand) : candLE a b ∨ candLE b a := by
  unfold candLE
  rcases lt_trichotomy a.1 b.1 with h | h | h
  · exact Or.inl (Or.inl h)
  · rcases lt_trichotomy a.2.1 b.2.1 with h2 | h2 | h2
    · exact Or.inl (Or.inr ⟨h, Or.inl h2⟩)
    · rcases le_total a.2.2 b.2.2 with h3 | h3
      · exact Or.inl (Or.inr ⟨h, Or.inr ⟨h2, h3⟩⟩)
      · exact Or.inr (Or.inr ⟨h.symm, Or.inr ⟨h2.symm, h3⟩⟩)
    · exact Or.inr (Or.inr ⟨h.symm, Or.inl h2⟩)
  · exact Or.inr (Or.inl h)

theorem candLE_trans (a b c : Cand) :
    candLE a b → candLE b c → candLE a c := by
  intro hab hbc
  unfold candLE at hab hbc ⊢
  rcases hab with h1 | ⟨e1, h1⟩ <;> rcases hbc with h2 | ⟨e2, h2⟩
  · exact Or.inl (h1.trans h2)
  · exact Or.inl (e2 ▸ h1)
  · exact Or.inl (e1 ▸ h2)
  · refine Or.inr ⟨e1.trans e2, ?_⟩
    rcases h1 with h1 | ⟨f1, h1⟩ <;> rcases h2 with h2 | ⟨f2, h2⟩
    · exact Or.inl (h1.trans h2)
    · exact Or.inl (f2 ▸ h1)
    · exact Or.inl (f1 ▸ h2)
    · exact Or.inr ⟨f1.trans f2, h1.trans h2⟩

theorem candLE_antisymm (a b : Cand) :
    candLE a b → candLE b a → a = b := by
  intro hab hba
  unfold candLE at hab hba
  rcases hab with h1 | ⟨e1, h1⟩
  · rcases hba with h2 | ⟨e2, h2⟩
    · exact absurd (h1.trans h2) (lt_irrefl _)
    · exact absurd (e2 ▸ h1) (lt_irrefl _)
  · rcases hba with h2 | ⟨e2, h2⟩
    · exact absurd (e1 ▸ h2) (lt_irrefl _)
    · rcases h1 with h1 | ⟨f1, h1⟩
      · rcases h2 with h2 | ⟨f2, h2⟩
        · exact absurd (h1.trans h2) (lt_irrefl _)
        · exact absurd (f2 ▸ h1) (lt_irrefl _)
      · rcases h2 with h2 | ⟨f2, h2⟩
        · exact absurd (f1 ▸ h2) (lt_irrefl _)
        · exact Prod.ext e1 (Prod.ext f1 (le_antisymm h1 h2))

instance : IsTotal Cand candLE := ⟨candLE_total⟩

instance : IsTrans Cand candLE := ⟨candLE_trans⟩

instance : IsAntisymm Cand candLE := ⟨candLE_antisymm⟩

instance : IsTotal Cand candGE := ⟨fun a b => (candLE_total a b).symm⟩

instance : IsTrans Cand candGE :=
  ⟨fun a b c h1 h2 => candLE_trans c b a h2 h1⟩

instance : IsAntisymm Cand candGE :=
  ⟨fun a b h1 h2 => candLE_antisymm a b h2 h1⟩

instance : IsTotal Cand scoreGE := ⟨fun a b => le_total b.1 a.1⟩

instance : IsTrans Cand scoreGE := ⟨fun _ _ _ h1 h2 => le_trans h2 h1⟩

/-- `candLE` refines the score order: a tuple-smaller candidate has a
smaller-or-equal score. -/
theorem candLE_score {a b : Cand} (h : candLE a b) : a.1 ≤ b.1 := by
  unfold candLE at h
  rcases h with h | ⟨e, _⟩
  · exact le_of_lt h
  · exact le_of_eq e

/-! ### The bounded heap computes the top-k of the full sort -/

theorem orderedInsert_cons_of_forall {α : Type} (r : α → α → Prop)
    [DecidableRel r] (x : α) (t : List α) (h : ∀ b ∈ t, r x b) :
    t.orderedInsert r x = x :: t := by
  cases t with
  | nil => rfl
  | cons b t' =>
      simp [List.orderedInsert, h b (List.mem_cons_self b t')]

theorem orderedInsert_drop_one {α : Type} (r : α → α → Prop)
    [DecidableRel r] [IsTrans α r] (x : α) :
    ∀ (S : List α), S.Sorted r → ∀ m : ℕ,
      ((S.drop m).orderedInsert r x).drop 1
        = (S.orderedInsert r x).drop (m + 1) := by
  intro S
  induction S with
  | nil => intro _ m; simp [List.orderedInsert]
  | cons a t ih =>
      intro hs m
      cases m with
      | zero => simp
      | succ j =>
          have hLHS : ((a :: t).drop (j + 1)) = t.drop j := by simp
          rw [hLHS, ih hs.of_cons j]
          show _ = ((a :: t).orderedInsert r x).drop (j + 2)
          by_cases hxa : r x a
          · rw [List.orderedInsert_of_le r t hxa]
            have hall : ∀ b ∈ t, r x b := fun b hb =>
              Trans.trans hxa (List.rel_of_sorted_cons hs b hb)
            rw [orderedInsert_cons_of_forall r x t hall]
            simp
          · show _ = (if r x a then x :: a :: t else
                a :: t.orderedInsert r x).drop (j + 2)
            rw [if_neg hxa]
            simp

/-- Folding the sorted-model bounded push over a candidate stream leaves
exactly the `k` largest candidates (in the full tuple order), i.e. the
final block of the ascending full sort. -/
theorem foldl_pushBoundedSorted_eq (k : ℕ) (xs : List Cand) :
    List.foldl (SearchHandler.pushBoundedSorted k) [] xs
      = (xs.insertionSort candLE).drop (xs.length - k) := by
  induction xs using List.reverseRecOn with
  | nil => simp
  | append_singleton xs x ih =>
      rw [List.foldl_append, List.foldl_cons, List.foldl_nil, ih]
      have hsorted := List.sorted_insertionSort candLE xs
      have hlen : (xs.insertionSort candLE).length = xs.length :=
        List.length_insertionSort candLE xs
      have hsort_app : (xs ++ [x]).insertionSort candLE
          = (xs.insertionSort candLE).orderedInsert candLE x := by
        refine List.eq_of_perm_of_sorted ?_
          (List.sorted_insertionSort candLE (xs ++ [x]))
          (hsorted.orderedInsert x _)
        exact (List.perm_insertionSort candLE (xs ++ [x])).trans
          ((List.perm_append_singleton x xs).trans
            (((List.perm_insertionSort candLE xs).symm.cons x).trans
              (List.perm_orderedInsert candLE x _).symm))
      rw [hsort_app]
      unfold SearchHandler.pushBoundedSorted
      rcases Nat.lt_or_ge xs.length k with hk | hk
      · have h1 : xs.length - k = 0 := by omega
        have h2 : xs.length + 1 - k = 0 := by omega
        rw [h1, List.drop_zero]
        rw [if_pos (by rw [hlen]; exact hk)]
        rw [List.length_append, List.length_singleton, h2, List.drop_zero]
      · have hdroplen : ((xs.insertionSort candLE).drop
            (xs.length - k)).length = k := by
          rw [List.length_drop, hlen]; omega
        rw [if_neg (by rw [hdroplen]; exact lt_irrefl k)]
        have := orderedInsert_drop_one candLE x (xs.insertionSort candLE)
          hsorted (xs.length - k)
        rw [← List.drop_one, this]
        have : xs.length - k + 1 = xs.length + 1 - k := by omega
        rw [this, List.length_append, List.length_singleton]

/-- Sorting descending in full tuple order is reversing the ascending
full sort. -/
theorem sortGE_eq_reverse (xs : List Cand) :
    xs.insertionSort candGE = (xs.insertionSort candLE).reverse := by
  have hsorted : (xs.insertionSort candLE).Sorted candLE :=
    List.sorted_insertionSort candLE xs
  have hrevsorted : (xs.insertionSort candLE).reverse.Sorted candGE := by
    rw [List.Sorted, List.pairwise_reverse]
    exact hsorted
  refine List.eq_of_perm_of_sorted ?_
    (List.sorted_insertionSort candGE xs) hrevsorted
  exact (List.perm_insertionSort candGE xs).trans
    ((List.perm_insertionSort candLE xs).symm.trans
      (List.reverse_perm _).symm)

/-- The sorted-model bounded heap, reversed, is exactly the first `k`
elements of the fully sorted (descending, full tuple order)
concatenation. -/
theorem pushBoundedSorted_reverse_topk (k : ℕ) (xs : List Cand) :
    (List.foldl (SearchHandler.pushBoundedSorted k) [] xs).reverse
      = (xs.insertionSort candGE).take k := by
  rw [foldl_pushBoundedSorted_eq, sortGE_eq_reverse]
  set S := xs.insertionSort candLE with hS
  have hlen : S.length = xs.length := List.length_insertionSort candLE xs
  rw [List.reverse_drop, hlen]
  rcases le_or_lt k xs.length with hk | hk
  · have h0 : xs.length - (xs.length - k) = k := by omega
    rw [h0]
  · have h1 : xs.length - (xs.length - k) = xs.length := by omega
    rw [h1]
    have hrl : S.reverse.length = xs.length := by
      rw [List.length_reverse, hlen]
    rw [List.take_of_length_le (le_of_eq hrl),
        List.take_of_length_le (by omega : S.reverse.length ≤ k)]

/-! ### Verification of the heapq embedding -/

theorem candLE_refl (a : Cand) : candLE a a :=
  Or.inr ⟨rfl, Or.inr ⟨rfl, le_refl _⟩⟩

theorem candLE_of_candLT {a b : Cand} (h : candLT a b) : candLE a b := by
  unfold candLT at h
  unfold candLE
  rcases h with h | ⟨e, h | ⟨e2, h⟩⟩
  · exact Or.inl h
  · exact Or.inr ⟨e, Or.inl h⟩
  · exact Or.inr ⟨e, Or.inr ⟨e2, le_of_lt h⟩⟩

theorem candLT_irrefl (a : Cand) : ¬ candLT a a := by
  unfold candLT
  intro h
  rcases h with h | ⟨_, h | ⟨_, h⟩⟩ <;> exact absurd h (lt_irrefl _)

theorem candLT_of_candLE_ne {a b : Cand} (h : candLE a b) (hne : a ≠ b) :
    candLT a b := by
  unfold candLE at h
  unfold candLT
  rcases h with h | ⟨e, h | ⟨e2, h⟩⟩
  · exact Or.inl h
  · exact Or.inr ⟨e, Or.inl h⟩
  · rcases lt_or_eq_of_le h with h | h
    · exact Or.inr ⟨e, Or.inr ⟨e2, h⟩⟩
    · exact absurd (Prod.ext e (Prod.ext e2 h)) hne

theorem not_candLT {a b : Cand} : ¬ candLT a b ↔ candLE b a := by
  constructor
  · intro h
    rcases candLE_total a b with hab | hba
    · by_cases he : a = b
      · subst he; exact candLE_refl a
      · exact absurd (candLT_of_candLE_ne hab he) h
    · exact hba
  · intro hba hlt
    have : a = b := candLE_antisymm a b (candLE_of_candLT hlt) hba
    subst this
    exact candLT_irrefl a hlt

namespace SearchHandler

theorem getD_set_self (l : List Cand) (i : ℕ) (v : Cand)
    (h : i < l.length) : (l.set i v).getD i default = v := by
  simp [List.getD, List.getElem?_set, h]

theorem getD_set_ne (l : List Cand) {i j : ℕ} (v : Cand) (h : i ≠ j) :
    (l.set i v).getD j default = l.getD j default := by
  simp [List.getD, List.getElem?_set, h]

theorem set_getD_self (l : List Cand) (i : ℕ) :
    l.set i (l.getD i default) = l := by
  induction l generalizing i with
  | nil => rfl
  | cons a t ih =>
      cases i with
      | zero => rfl
      | succ j =>
          show a :: t.set j (t.getD j default) = a :: t
          rw [ih j]

theorem set_perm_cons_eraseIdx (l : List Cand) (i : ℕ) (v : Cand)
    (h : i < l.length) : (l.set i v).Perm (v :: l.eraseIdx i) := by
  induction l generalizing i with
  | nil => cases h
  | cons a t ih =>
      cases i with
      | zero => exact List.Perm.refl _
      | succ j =>
          have hj : j < t.length := by simpa using h
          show (a :: t.set j v).Perm (v :: a :: t.eraseIdx j)
          exact ((ih j hj).cons a).trans (List.Perm.swap v a _)

theorem perm_cons_getD_eraseIdx (l : List Cand) (i : ℕ)
    (h : i < l.length) : l.Perm (l.getD i default :: l.eraseIdx i) := by
  have h2 := set_perm_cons_eraseIdx l i (l.getD i default) h
  rwa [set_getD_self] at h2

theorem set_getD_set_perm :
    ∀ (l : List Cand) (i j : ℕ) (v : Cand), i ≠ j → i < l.length →
      j < l.length →
      ((l.set i (l.getD j default)).set j v).Perm (l.set i v) := by
  intro l
  induction l with
  | nil => intro i j v _ hi _; cases hi
  | cons a t ih =>
      intro i j v hij hi hj
      cases i with
      | zero =>
          cases j with
          | zero => exact absurd rfl hij
          | succ j' =>
              have hj' : j' < t.length := by simpa using hj
              show (t.getD j' default :: t.set j' v).Perm (v :: t)
              have h1 := set_perm_cons_eraseIdx t j' v hj'
              have h2 := perm_cons_getD_eraseIdx t j' hj'
              exact (h1.cons _).trans
                ((List.Perm.swap v (t.getD j' default) _).trans
                  (h2.symm.cons v))
      | succ i' =>
          cases j with
          | zero =>
              have hi' : i' < t.length := by simpa using hi
              show (v :: t.set i' a).Perm (a :: t.set i' v)
              have h1 := set_perm_cons_eraseIdx t i' a hi'
              have h2 := set_perm_cons_eraseIdx t i' v hi'
              exact (h1.cons v).trans
                ((List.Perm.swap a v _).trans (h2.symm.cons a))
          | succ j' =>
              have hij' : i' ≠ j' := fun hh => hij (by rw [hh])
              have hi' : i' < t.length := by simpa using hi
              have hj' : j' < t.length := by simpa using hj
              show (a :: (t.set i' (t.getD j' default)).set j' v).Perm
                (a :: t.set i' v)
              exact (ih i' j' v hij' hi' hj').cons a

theorem siftdownLoop_length (newitem : Cand) (s : ℕ) :
    ∀ pos heap,
      (siftdownLoop newitem s pos heap).length = heap.length := by
  intro pos
  induction pos using Nat.strong_induction_on with
  | _ pos ih =>
      intro heap
      rw [siftdownLoop]
      split
      · split
        · rw [ih (parentIdx pos) (parentIdx_lt pos (by omega))]
          simp
        · simp
      · simp

theorem siftdownLoop_perm (newitem : Cand) (s : ℕ) :
    ∀ pos heap, pos < heap.length →
      (siftdownLoop newitem s pos heap).Perm (heap.set pos newitem) := by
  intro pos
  induction pos using Nat.strong_induction_on with
  | _ pos ih =>
      intro heap hpos
      rw [siftdownLoop]
      split
      · split
        · refine (ih (parentIdx pos) (parentIdx_lt pos (by omega)) _
            (by rw [List.length_set]
                exact lt_trans (parentIdx_lt pos (by omega)) hpos)).trans ?_
          exact set_getD_set_perm heap pos (parentIdx pos) newitem
            (Nat.ne_of_gt (parentIdx_lt pos (by omega))) hpos
            (lt_trans (parentIdx_lt pos (by omega)) hpos)
        · exact List.Perm.refl _
      · exact List.Perm.refl _

theorem parentIdx_left (p : ℕ) : parentIdx (2 * p + 1) = p := by
  unfold parentIdx; omega

theorem parentIdx_right (p : ℕ) : parentIdx (2 * p + 2) = p := by
  unfold parentIdx; omega

theorem child_cases {c p : ℕ} (h : parentIdx c = p) (h0 : 0 < c) :
    c = 2 * p + 1 ∨ c = 2 * p + 2 := by
  unfold parentIdx at h; omega

theorem child_pos {c p : ℕ} (h : parentIdx c = p) (hp : 0 < p) : 0 < c := by
  unfold parentIdx at h; omega

theorem child_ge {c p : ℕ} (h : parentIdx c = p) (h0 : 0 < c) :
    2 * p + 1 ≤ c := by
  unfold parentIdx at h; omega

theorem siftdownLoop_isHeap (newitem : Cand) :
    ∀ pos heap, pos < heap.length →
      (∀ i, 0 < i → i < heap.length → i ≠ pos →
        candLE (heap.getD (parentIdx i) default) (heap.getD i default)) →
      (∀ c, parentIdx c = pos → 0 < c → c < heap.length →
        candLE newitem (heap.getD c default)) →
      (0 < pos → ∀ c, parentIdx c = pos → 0 < c → c < heap.length →
        candLE (heap.getD (parentIdx pos) default) (heap.getD c default)) →
      IsHeap (siftdownLoop newitem 0 pos heap) := by
  intro pos
  induction pos using Nat.strong_induction_on with
  | _ pos ih =>
      intro heap hpos hA hE hB
      rw [siftdownLoop]
      by_cases h0 : 0 < pos
      · rw [dif_pos h0]
        by_cases hlt : candLT newitem (heap.getD (parentIdx pos) default)
        · rw [if_pos hlt]
          have hpplt : parentIdx pos < pos := parentIdx_lt pos h0
          have hppl : parentIdx pos < heap.length := lt_trans hpplt hpos
          refine ih (parentIdx pos) hpplt _
            (by rw [List.length_set]; exact hppl) ?_ ?_ ?_
          · intro i hi0 hil hine
            rw [List.length_set] at hil
            by_cases hip : i = pos
            · subst hip
              rw [getD_set_self heap i _ hpos,
                  getD_set_ne heap _ (ne_of_gt hpplt)]
              exact candLE_refl _
            · by_cases hpi : parentIdx i = pos
              · rw [getD_set_ne heap _ (fun hh => hip hh.symm), hpi,
                    getD_set_self heap pos _ hpos]
                exact hB h0 i hpi hi0 hil
              · rw [getD_set_ne heap _ (fun hh => hip hh.symm),
                    getD_set_ne heap _ (fun hh => hpi hh.symm)]
                exact hA i hi0 hil hip
          · intro c hc hc0 hcl
            rw [List.length_set] at hcl
            by_cases hcp : c = pos
            · subst hcp
              rw [getD_set_self heap c _ hpos]
              exact candLE_of_candLT hlt
            · rw [getD_set_ne heap _ (fun hh => hcp hh.symm)]
              have h5 := hA c hc0 hcl hcp
              rw [hc] at h5
              exact candLE_trans _ _ _ (candLE_of_candLT hlt) h5
          · intro hpp0 c hc hc0 hcl
            rw [List.length_set] at hcl
            rw [getD_set_ne heap _
              (ne_of_gt (lt_trans (parentIdx_lt _ hpp0) hpplt))]
            have hApp := hA (parentIdx pos) hpp0 hppl (Nat.ne_of_lt hpplt)
            by_cases hcp : c = pos
            · subst hcp
              rw [getD_set_self heap c _ hpos]
              exact hApp
            · rw [getD_set_ne heap _ (fun hh => hcp hh.symm)]
              have h5 := hA c hc0 hcl hcp
              rw [hc] at h5
              exact candLE_trans _ _ _ hApp h5
        · rw [if_neg hlt]
          intro i hi0 hil
          rw [List.length_set] at hil
          by_cases hip : i = pos
          · subst hip
            rw [getD_set_self heap i _ hpos,
                getD_set_ne heap _ (ne_of_gt (parentIdx_lt i h0))]
            exact not_candLT.mp hlt
          · by_cases hpi : parentIdx i = pos
            · rw [getD_set_ne heap _ (fun hh => hip hh.symm), hpi,
                  getD_set_self heap pos _ hpos]
              exact hE i hpi hi0 hil
            · rw [getD_set_ne heap _ (fun hh => hip hh.symm),
                  getD_set_ne heap _ (fun hh => hpi hh.symm)]
              exact hA i hi0 hil hip
      · rw [dif_neg h0]
        have hp0 : pos = 0 := by omega
        subst hp0
        intro i hi0 hil
        rw [List.length_set] at hil
        by_cases hpi : parentIdx i = 0
        · rw [hpi, getD_set_self heap 0 _ hpos,
              getD_set_ne heap _ (by omega : (0:ℕ) ≠ i)]
          exact hE i hpi hi0 hil
        · rw [getD_set_ne heap _ (fun hh => hpi hh.symm),
              getD_set_ne heap _ (by omega : (0:ℕ) ≠ i)]
          exact hA i hi0 hil (by omega)

theorem siftupLoop_spec :
    ∀ (n : ℕ) (heap : List Cand) (pos : ℕ), heap.length - pos = n →
      pos < heap.length →
      (∀ i, 0 < i → i < heap.length → parentIdx i ≠ pos →
        candLE (heap.getD (parentIdx i) default) (heap.getD i default)) →
      (0 < pos → ∀ c, parentIdx c = pos → c < heap.length →
        candLE (heap.getD pos default) (heap.getD c default)) →
      (siftupLoop heap pos).1.length = heap.length
      ∧ (siftupLoop heap pos).2 < heap.length
      ∧ heap.length ≤ 2 * (siftupLoop heap pos).2 + 1
      ∧ (∀ i, 0 < i → i < heap.length →
          parentIdx i ≠ (siftupLoop heap pos).2 →
          candLE ((siftupLoop heap pos).1.getD (parentIdx i) default)
            ((siftupLoop heap pos).1.getD i default))
      ∧ ∀ v : Cand,
          ((siftupLoop heap pos).1.set (siftupLoop heap pos).2 v).Perm
            (heap.set pos v) := by
  intro n
  induction n using Nat.strong_induction_on with
  | _ n ih =>
      intro heap pos hn hpos hA hB
      rw [siftupLoop]
      by_cases hc1 : 2 * pos + 1 < heap.length
      · rw [dif_pos hc1]
        by_cases hr : 2 * pos + 2 < heap.length ∧
            ¬ candLT (heap.getD (2 * pos + 1) default)
              (heap.getD (2 * pos + 2) default)
        · rw [dif_pos hr]
          have hcpl : 2 * pos + 2 < heap.length := hr.1
          have hpc : pos ≠ 2 * pos + 2 := by omega
          have hA' : ∀ i, 0 < i →
              i < (heap.set pos (heap.getD (2 * pos + 2) default)).length →
              parentIdx i ≠ 2 * pos + 2 →
              candLE ((heap.set pos
                  (heap.getD (2 * pos + 2) default)).getD
                    (parentIdx i) default)
                ((heap.set pos
                  (heap.getD (2 * pos + 2) default)).getD i default) := by
            intro i hi0 hil hpi
            rw [List.length_set] at hil
            by_cases hip : i = pos
            · subst hip
              rw [getD_set_self heap i _ hpos,
                  getD_set_ne heap _ (ne_of_gt (parentIdx_lt i hi0))]
              exact candLE_trans _ _ _
                (hA i hi0 hil (Nat.ne_of_lt (parentIdx_lt i hi0)))
                (hB hi0 (2 * i + 2) (parentIdx_right i) hcpl)
            · by_cases hpip : parentIdx i = pos
              · by_cases hicp : i = 2 * pos + 2
                · subst hicp
                  rw [hpip, getD_set_self heap pos _ hpos,
                      getD_set_ne heap _ hpc]
                  exact candLE_refl _
                · have hi1 : i = 2 * pos + 1 := by
                    rcases child_cases hpip hi0 with h | h
                    · exact h
                    · exact absurd h hicp
                  subst hi1
                  rw [hpip, getD_set_self heap pos _ hpos,
                      getD_set_ne heap _ (by omega : pos ≠ 2 * pos + 1)]
                  exact not_candLT.mp hr.2
              · rw [getD_set_ne heap _ (fun hh => hip hh.symm),
                    getD_set_ne heap _ (fun hh => hpip hh.symm)]
                exact hA i hi0 hil hpip
          have hB' : 0 < 2 * pos + 2 → ∀ c, parentIdx c = 2 * pos + 2 →
              c < (heap.set pos (heap.getD (2 * pos + 2) default)).length →
              candLE ((heap.set pos
                  (heap.getD (2 * pos + 2) default)).getD
                    (2 * pos + 2) default)
                ((heap.set pos
                  (heap.getD (2 * pos + 2) default)).getD c default) := by
            intro _ c hcp hcl
            rw [List.length_set] at hcl
            have hc0 : 0 < c := child_pos hcp (by omega)
            have hcnp : c ≠ pos := by
              unfold parentIdx at hcp; omega
            rw [getD_set_ne heap _ hpc,
                getD_set_ne heap _ (fun hh => hcnp hh.symm)]
            have h5 := hA c hc0 hcl (by rw [hcp]; omega)
            rw [hcp] at h5
            exact h5
          have hlt' : (heap.set pos
              (heap.getD (2 * pos + 2) default)).length - (2 * pos + 2)
              < n := by
            rw [List.length_set]; omega
          obtain ⟨L1, L2, L3, L4, L5⟩ := ih _ hlt' _ (2 * pos + 2) rfl
            (by rw [List.length_set]; exact hcpl) hA' hB'
          rw [List.length_set] at L1 L2 L3 L4
          refine ⟨L1, L2, L3, L4, ?_⟩
          intro v
          exact (L5 v).trans
            (set_getD_set_perm heap pos (2 * pos + 2) v hpc hpos hcpl)
        · rw [dif_neg hr]
          have hcpl : 2 * pos + 1 < heap.length := hc1
          have hpc : pos ≠ 2 * pos + 1 := by omega
          have hA' : ∀ i, 0 < i →
              i < (heap.set pos (heap.getD (2 * pos + 1) default)).length →
              parentIdx i ≠ 2 * pos + 1 →
              candLE ((heap.set pos
                  (heap.getD (2 * pos + 1) default)).getD
                    (parentIdx i) default)
                ((heap.set pos
                  (heap.getD (2 * pos + 1) default)).getD i default) := by
            intro i hi0 hil hpi
            rw [List.length_set] at hil
            by_cases hip : i = pos
            · subst hip
              rw [getD_set_self heap i _ hpos,
                  getD_set_ne heap _ (ne_of_gt (parentIdx_lt i hi0))]
              exact candLE_trans _ _ _
                (hA i hi0 hil (Nat.ne_of_lt (parentIdx_lt i hi0)))
                (hB hi0 (2 * i + 1) (parentIdx_left i) hcpl)
            · by_cases hpip : parentIdx i = pos
              · by_cases hicp : i = 2 * pos + 1
                · subst hicp
                  rw [hpip, getD_set_self heap pos _ hpos,
                      getD_set_ne heap _ hpc]
                  exact candLE_refl _
                · have hi2 : i = 2 * pos + 2 := by
                    rcases child_cases hpip hi0 with h | h
                    · exact absurd h hicp
                    · exact h
                  subst hi2
                  rw [hpip, getD_set_self heap pos _ hpos,
                      getD_set_ne heap _ (by omega : pos ≠ 2 * pos + 2)]
                  exact candLE_of_candLT (not_not.mp (not_and.mp hr hil))
              · rw [getD_set_ne heap _ (fun hh => hip hh.symm),
                    getD_set_ne heap _ (fun hh => hpip hh.symm)]
                exact hA i hi0 hil hpip
          have hB' : 0 < 2 * pos + 1 → ∀ c, parentIdx c = 2 * pos + 1 →
              c < (heap.set pos (heap.getD (2 * pos + 1) default)).length →
              candLE ((heap.set pos
                  (heap.getD (2 * pos + 1) default)).getD
                    (2 * pos + 1) default)
                ((heap.set pos
                  (heap.getD (2 * pos + 1) default)).getD c default) := by
            intro _ c hcp hcl
            rw [List.length_set] at hcl
            have hc0 : 0 < c := child_pos hcp (by omega)
            have hcnp : c ≠ pos := by
              unfold parentIdx at hcp; omega
            rw [getD_set_ne heap _ hpc,
                getD_set_ne heap _ (fun hh => hcnp hh.symm)]
            have h5 := hA c hc0 hcl (by rw [hcp]; omega)
            rw [hcp] at h5
            exact h5
          have hlt' : (heap.set pos
              (heap.getD (2 * pos + 1) default)).length - (2 * pos + 1)
              < n := by
            rw [List.length_set]; omega
          obtain ⟨L1, L2, L3, L4, L5⟩ := ih _ hlt' _ (2 * pos + 1) rfl
            (by rw [List.length_set]; exact hcpl) hA' hB'
          rw [List.length_set] at L1 L2 L3 L4
          refine ⟨L1, L2, L3, L4, ?_⟩
          intro v
          exact (L5 v).trans
            (set_getD_set_perm heap pos (2 * pos + 1) v hpc hpos hcpl)
      · rw [dif_neg hc1]
        refine ⟨rfl, hpos, by omega, ?_, fun v => List.Perm.refl _⟩
        intro i hi0 hil hpi
        exact hA i hi0 hil hpi

theorem _siftup_spec (heap : List Cand) (h0 : 0 < heap.length)
    (hA : ∀ i, 0 < i → i < heap.length → parentIdx i ≠ 0 →
      candLE (heap.getD (parentIdx i) default) (heap.getD i default)) :
    IsHeap (_siftup heap 0) ∧ (_siftup heap 0).Perm heap
      ∧ (_siftup heap 0).length = heap.length := by
  obtain ⟨L1, L2, L3, L4, L5⟩ := siftupLoop_spec heap.length heap 0
    (by omega) h0 hA (fun h => absurd h (lt_irrefl 0))
  have hlt : (siftupLoop heap 0).2 < (siftupLoop heap 0).1.length := by
    rw [L1]; exact L2
  have hval : ((siftupLoop heap 0).1.set (siftupLoop heap 0).2
      (heap.getD 0 default)).getD (siftupLoop heap 0).2 default
      = heap.getD 0 default :=
    getD_set_self _ _ _ hlt
  have hshow : _siftup heap 0
      = siftdownLoop (((siftupLoop heap 0).1.set (siftupLoop heap 0).2
            (heap.getD 0 default)).getD (siftupLoop heap 0).2 default)
          0 (siftupLoop heap 0).2
          ((siftupLoop heap 0).1.set (siftupLoop heap 0).2
            (heap.getD 0 default)) := rfl
  rw [hval] at hshow
  have hlen2 : ((siftupLoop heap 0).1.set (siftupLoop heap 0).2
      (heap.getD 0 default)).length = heap.length := by
    rw [List.length_set, L1]
  have hpos2 : (siftupLoop heap 0).2
      < ((siftupLoop heap 0).1.set (siftupLoop heap 0).2
        (heap.getD 0 default)).length := by
    rw [hlen2]; exact L2
  refine ⟨?_, ?_, ?_⟩
  · rw [hshow]
    apply siftdownLoop_isHeap (heap.getD 0 default) (siftupLoop heap 0).2 _
      hpos2 ?_ ?_ ?_
    · intro i hi0 hil hine
      rw [hlen2] at hil
      by_cases hpi : parentIdx i = (siftupLoop heap 0).2
      · have := child_ge hpi hi0
        exact absurd hil (by omega)
      · rw [getD_set_ne _ _ (fun hh => hine hh.symm),
            getD_set_ne _ _ (fun hh => hpi hh.symm)]
        exact L4 i hi0 hil hpi
    · intro c hc hc0 hcl
      rw [hlen2] at hcl
      have := child_ge hc hc0
      exact absurd hcl (by omega)
    · intro _ c hc hc0 hcl
      rw [hlen2] at hcl
      have := child_ge hc hc0
      exact absurd hcl (by omega)
  · rw [hshow]
    refine (siftdownLoop_perm _ 0 _ _ hpos2).trans ?_
    rw [List.set_set]
    refine (L5 (heap.getD 0 default)).trans ?_
    rw [set_getD_self]
  · rw [hshow, siftdownLoop_length, hlen2]

theorem getD_append_length (l : List Cand) (x : Cand) :
    (l ++ [x]).getD l.length default = x := by
  induction l with
  | nil => rfl
  | cons a t ih => exact ih

theorem getD_append_lt (l : List Cand) (x : Cand) (i : ℕ)
    (h : i < l.length) :
    (l ++ [x]).getD i default = l.getD i default := by
  rw [List.getD, List.getD, List.get?_append h]

theorem set_append_length (l : List Cand) (x v : Cand) :
    (l ++ [x]).set l.length v = l ++ [v] := by
  induction l with
  | nil => rfl
  | cons a t ih =>
      show a :: (t ++ [x]).set t.length v = a :: (t ++ [v])
      rw [ih]

theorem heappush_spec (heap : List Cand) (x : Cand) (hh : IsHeap heap) :
    IsHeap (heappush heap x) ∧ (heappush heap x).Perm (x :: heap)
      ∧ (heappush heap x).length = heap.length + 1 := by
  unfold heappush _siftdown
  rw [getD_append_length]
  have hlen : heap.length < (heap ++ [x]).length := by
    rw [List.length_append, List.length_singleton]; omega
  refine ⟨?_, ?_, ?_⟩
  · apply siftdownLoop_isHeap x heap.length (heap ++ [x]) hlen ?_ ?_ ?_
    · intro i hi0 hil hine
      rw [List.length_append, List.length_singleton] at hil
      have hil' : i < heap.length := by omega
      rw [getD_append_lt _ _ _ hil',
          getD_append_lt _ _ _ (lt_trans (parentIdx_lt i hi0) hil')]
      exact hh i hi0 hil'
    · intro c hc hc0 hcl
      have := child_ge hc hc0
      rw [List.length_append, List.length_singleton] at hcl
      exact absurd hcl (by omega)
    · intro _ c hc hc0 hcl
      have := child_ge hc hc0
      rw [List.length_append, List.length_singleton] at hcl
      exact absurd hcl (by omega)
  · refine (siftdownLoop_perm x 0 heap.length (heap ++ [x]) hlen).trans ?_
    rw [set_append_length]
    exact List.perm_append_singleton x heap
  · rw [siftdownLoop_length, List.length_append, List.length_singleton]

theorem heappushpop_spec (heap : List Cand) (x : Cand) (hh : IsHeap heap) :
    IsHeap (heappushpop heap x)
    ∧ (heappushpop heap x).length = heap.length
    ∧ ((heap ≠ [] ∧ candLT heap.headI x) →
        (heappushpop heap x).Perm (x :: heap.tail))
    ∧ (¬ (heap ≠ [] ∧ candLT heap.headI x) → heappushpop heap x = heap) := by
  unfold heappushpop
  by_cases hc : heap ≠ [] ∧ candLT heap.headI x
  · rw [if_pos hc]
    have hne := hc.1
    have h0 : 0 < (heap.set 0 x).length := by
      rw [List.length_set]
      exact List.length_pos.mpr hne
    have hA : ∀ i, 0 < i → i < (heap.set 0 x).length → parentIdx i ≠ 0 →
        candLE ((heap.set 0 x).getD (parentIdx i) default)
          ((heap.set 0 x).getD i default) := by
      intro i hi0 hil hpi
      rw [List.length_set] at hil
      rw [getD_set_ne heap _ (fun hh2 => hpi hh2.symm),
          getD_set_ne heap _ (by omega : (0:ℕ) ≠ i)]
      exact hh i hi0 hil
    obtain ⟨S1, S2, S3⟩ := _siftup_spec (heap.set 0 x) h0 hA
    refine ⟨S1, ?_, ?_, ?_⟩
    · rw [S3, List.length_set]
    · intro _
      refine S2.trans ?_
      rcases heap with _ | ⟨a, t⟩
      · exact absurd rfl hne
      · exact List.Perm.refl _
    · intro hnc
      exact absurd hc hnc
  · rw [if_neg hc]
    exact ⟨hh, rfl, fun hcc => absurd hcc hc, fun _ => rfl⟩

theorem isHeap_getD_zero_le (l : List Cand) (hh : IsHeap l) :
    ∀ i, i < l.length → candLE (l.getD 0 default) (l.getD i default) := by
  intro i
  induction i using Nat.strong_induction_on with
  | _ i ih =>
      intro hil
      rcases Nat.eq_zero_or_pos i with h0 | h0
      · subst h0
        exact candLE_refl _
      · exact candLE_trans _ _ _
          (ih (parentIdx i) (parentIdx_lt i h0)
            (lt_trans (parentIdx_lt i h0) hil))
          (hh i h0 hil)

theorem isHeap_headI_le (l : List Cand) (hh : IsHeap l) (x : Cand)
    (hx : x ∈ l) : candLE l.headI x := by
  obtain ⟨i, hi, heq⟩ := List.mem_iff_getElem.mp hx
  have hne : l ≠ [] := List.ne_nil_of_mem hx
  have h1 : l.headI = l.getD 0 default := by
    rcases l with _ | ⟨a, t⟩
    · exact absurd rfl hne
    · rfl
  have h2 : l.getD i default = x := by
    simp [List.getD, List.getElem?_eq_getElem hi, heq]
  rw [h1, ← h2]
  exact isHeap_getD_zero_le l hh i hi

theorem pushBounded_step (k : ℕ) (heap hs : List Cand) (x : Cand)
    (hh : IsHeap heap) (hperm : heap.Perm hs) (hsort : hs.Sorted candLE) :
    IsHeap (pushBounded k heap x)
    ∧ (pushBounded k heap x).Perm (pushBoundedSorted k hs x) := by
  have hlen := hperm.length_eq
  unfold pushBounded pushBoundedSorted
  by_cases hk : heap.length < k
  · rw [if_pos hk, if_pos (by omega : hs.length < k)]
    obtain ⟨P1, P2, P3⟩ := heappush_spec heap x hh
    exact ⟨P1, P2.trans ((hperm.cons x).trans
      (List.perm_orderedInsert candLE x hs).symm)⟩
  · rw [if_neg hk, if_neg (by omega : ¬ hs.length < k)]
    obtain ⟨Q1, Q2, Q3, Q4⟩ := heappushpop_spec heap x hh
    refine ⟨Q1, ?_⟩
    rcases heap with _ | ⟨a, t⟩
    · have hs_nil : hs = [] := hperm.symm.eq_nil
      subst hs_nil
      rw [Q4 (by simp)]
      simp [List.orderedInsert]
    · have hsne : hs ≠ [] := by
        intro h
        subst h
        have := hperm.eq_nil
        simp at this
      obtain ⟨b, u, hs_eq⟩ := List.exists_cons_of_ne_nil hsne
      subst hs_eq
      have hb_mem : b ∈ a :: t := hperm.mem_iff.mpr (by simp)
      have hhead_mem : a ∈ b :: u := hperm.mem_iff.mp (by simp)
      have h1 : candLE a b := isHeap_headI_le (a :: t) hh b hb_mem
      have h2 : candLE b a := by
        rcases List.mem_cons.mp hhead_mem with h | h
        · rw [h]
          exact candLE_refl _
        · exact List.rel_of_sorted_cons hsort _ h
      have hba : b = a := candLE_antisymm b a h2 h1
      subst hba
      by_cases hlt : candLT b x
      · refine (Q3 ⟨by simp, hlt⟩).trans ?_
        have hxb : ¬ candLE x b := fun hcon => absurd hlt (not_candLT.mpr hcon)
        simp only [List.orderedInsert, if_neg hxb, List.tail_cons]
        exact ((hperm.cons_inv.cons x).trans
          (List.perm_orderedInsert candLE x u).symm)
      · rw [Q4 (fun hcc => absurd hcc.2 hlt)]
        have hxb : candLE x b := not_candLT.mp hlt
        simp only [List.orderedInsert, if_pos hxb, List.tail_cons]
        exact hperm

theorem pushBoundedSorted_sorted (k : ℕ) (hs : List Cand) (x : Cand)
    (h : hs.Sorted candLE) : (pushBoundedSorted k hs x).Sorted candLE := by
  unfold pushBoundedSorted
  have h2 : (List.orderedInsert candLE x hs).Sorted candLE :=
    h.orderedInsert x hs
  split
  · exact h2
  · rcases hor : List.orderedInsert candLE x hs with _ | ⟨c, w⟩
    · simp
    · rw [hor] at h2
      rw [List.tail_cons]
      exact h2.of_cons

theorem heapFold_spec (k : ℕ) (xs : List Cand) :
    IsHeap (List.foldl (pushBounded k) [] xs)
    ∧ (List.foldl (pushBounded k) [] xs).Perm
        (List.foldl (pushBoundedSorted k) [] xs) := by
  suffices h : ∀ heap hs, IsHeap heap → heap.Perm hs → hs.Sorted candLE →
      IsHeap (List.foldl (pushBounded k) heap xs)
      ∧ (List.foldl (pushBounded k) heap xs).Perm
          (List.foldl (pushBoundedSorted k) hs xs) by
    exact h [] [] (fun i _ hil => by simp at hil) (List.Perm.refl _)
      List.sorted_nil
  induction xs with
  | nil => exact fun heap hs hh hp _ => ⟨hh, hp⟩
  | cons y ys ih =>
      intro heap hs hh hp hsrt
      obtain ⟨S1, S2⟩ := pushBounded_step k heap hs y hh hp hsrt
      exact ih (pushBounded k heap y) (pushBoundedSorted k hs y) S1 S2
        (pushBoundedSorted_sorted k hs y hsrt)

theorem heapFold_perm_topk (k : ℕ) (xs : List Cand) :
    (List.foldl (pushBounded k) [] xs).Perm
      ((xs.insertionSort candGE).take k) := by
  refine (heapFold_spec k xs).2.trans ?_
  rw [← pushBoundedSorted_reverse_topk]
  exact (List.reverse_perm _).symm

theorem heapFold_length (k : ℕ) (xs : List Cand) :
    (List.foldl (pushBounded k) [] xs).length = min k xs.length := by
  rw [(heapFold_perm_topk k xs).length_eq, List.length_take,
      List.length_insertionSort]

theorem nlargestModel_perm_of_le (k : ℕ) (l : List Cand)
    (h : l.length ≤ k) : (nlargestModel k l).Perm l := by
  unfold nlargestModel
  rw [List.take_of_length_le (by rw [List.length_insertionSort]; exact h)]
  exact List.perm_insertionSort scoreGE l

theorem nlargestModel_length (k : ℕ) (l : List Cand) :
    (nlargestModel k l).length = min k l.length := by
  unfold nlargestModel
  rw [List.length_take, List.length_insertionSort]

theorem nlargestModel_nil (k : ℕ) : nlargestModel k [] = [] := by
  simp [nlargestModel]

theorem nlargestModel_sorted (k : ℕ) (l : List Cand) :
    (nlargestModel k l).Sorted scoreGE :=
  (List.sorted_insertionSort scoreGE l).sublist (List.take_sublist k _)

end SearchHandler

/-! ### The search loop as heap-fold over the concatenated candidates -/

theorem searchFold_eq_collect (owners : List (ℤ × ℤ)) (qv : List ℚ) (k : ℕ) :
    ∀ (fids : List ℤ) (acc : List Cand) (st : SearchHandler.HandlerState),
      SearchHandler.searchFold owners qv k fids
        (List.foldl (SearchHandler.pushBounded k) [] acc, st)
      = (List.foldl (SearchHandler.pushBounded k) []
          (SearchHandler.collectCands owners qv k fids (acc, st)).1,
         (SearchHandler.collectCands owners qv k fids (acc, st)).2) := by
  intro fids
  induction fids with
  | nil => intro acc st; rfl
  | cons fid rest ih =>
      intro acc st
      rcases hfc : SearchHandler.folderCands owners qv k st fid with ⟨cs, st'⟩
      simp only [SearchHandler.searchFold, SearchHandler.collectCands, hfc]
      rw [← List.foldl_append (SearchHandler.pushBounded k) [] acc cs]
      exact ih (acc ++ cs) st'

/-- `search_with_ownership`, re-expressed: its returned triple is
`heapq.nlargest` applied to the bounded heap fold over the concatenated
per-scope candidate stream. -/
theorem search_with_ownership_repr (E : ExtDeps)
    (st : SearchHandler.HandlerState) (q : String) (fids : List ℤ)
    (owners : List (ℤ × ℤ)) (k : ℕ) :
    SearchHandler.search_with_ownership E st q fids owners k
      = (SearchHandler.toResult
          (SearchHandler.nlargestModel k
            (List.foldl (SearchHandler.pushBounded k) []
              (SearchHandler.allCandidates E st q fids owners k))),
         (SearchHandler.collectCands owners
            ((SearchHandler._normalize E [E.embedText q]).headI) k fids
            ([], st)).2) := by
  have h := searchFold_eq_collect owners
    ((SearchHandler._normalize E [E.embedText q]).headI) k fids [] st
  rw [List.foldl_nil] at h
  simp only [SearchHandler.search_with_ownership, SearchHandler.allCandidates, h]

/-! ### Association lists: lookup/erase toolkit -/

theorem alookup_eq_none {κ V : Type} [DecidableEq κ] (l : List (κ × V))
    (k : κ) : alookup l k = none ↔ k ∉ l.map Prod.fst := by
  induction l with
  | nil => simp [alookup]
  | cons p t ih =>
      by_cases h : p.1 = k
      · simp [alookup, h]
      · simp [alookup, h, ih, Ne.symm h]

theorem alookup_isSome {κ V : Type} [DecidableEq κ] (l : List (κ × V))
    (k : κ) : (alookup l k).isSome = true ↔ k ∈ l.map Prod.fst := by
  rcases ho : alookup l k with _ | v
  · simpa using (alookup_eq_none l k).mp ho
  · simp only [Option.isSome_some, true_iff]
    by_contra hmem
    rw [(alookup_eq_none l k).mpr hmem] at ho
    cases ho

theorem map_fst_aerase {κ V : Type} [DecidableEq κ] (l : List (κ × V))
    (k : κ) : (aerase l k).map Prod.fst = (l.map Prod.fst).erase k := by
  induction l with
  | nil => simp [aerase]
  | cons p t ih =>
      by_cases h : p.1 = k
      · simp [aerase, h, List.erase_cons_head]
      · rw [aerase, if_neg h, List.map_cons, List.map_cons,
          List.erase_cons_tail, ih]
        simp [h]

theorem aerase_of_not_mem {κ V : Type} [DecidableEq κ] {l : List (κ × V)}
    {k : κ} (h : k ∉ l.map Prod.fst) : aerase l k = l := by
  induction l with
  | nil => rfl
  | cons p t ih =>
      simp only [List.map_cons, List.mem_cons, not_or] at h
      rw [aerase, if_neg (fun he => h.1 he.symm), ih h.2]

theorem alookup_aerase_self {κ V : Type} [DecidableEq κ] {l : List (κ × V)}
    (k : κ) (h : (l.map Prod.fst).Nodup) : alookup (aerase l k) k = none := by
  induction l with
  | nil => rfl
  | cons p t ih =>
      simp only [List.map_cons, List.nodup_cons] at h
      by_cases hp : p.1 = k
      · rw [aerase, if_pos hp]
        exact (alookup_eq_none t k).mpr (hp ▸ h.1)
      · rw [aerase, if_neg hp, alookup, if_neg hp]
        exact ih h.2

theorem alookup_aerase_ne {κ V : Type} [DecidableEq κ] (l : List (κ × V))
    {k k' : κ} (h : k' ≠ k) : alookup (aerase l k) k' = alookup l k' := by
  induction l with
  | nil => rfl
  | cons p t ih =>
      by_cases hp : p.1 = k
      · rw [aerase, if_pos hp, alookup, if_neg (hp ▸ fun he => h he.symm)]
      · rw [aerase, if_neg hp, alookup, alookup]
        by_cases hp' : p.1 = k'
        · rw [if_pos hp', if_pos hp']
        · rw [if_neg hp', if_neg hp', ih]

theorem length_aerase_of_mem {κ V : Type} [DecidableEq κ]
    {l : List (κ × V)} {k : κ} (h : k ∈ l.map Prod.fst) :
    (aerase l k).length + 1 = l.length := by
  induction l with
  | nil => cases h
  | cons p t ih =>
      by_cases hp : p.1 = k
      · rw [aerase, if_pos hp]; simp
      · simp only [List.map_cons, List.mem_cons] at h
        rcases h with h | h
        · exact absurd h.symm hp
        · rw [aerase, if_neg hp, List.length_cons, List.length_cons, ih h]

/-- Well-formedness of the cache bookkeeping: the dict
`self._index_cache` has (necessarily) unique keys, and
`self._cache_access_order` holds exactly those keys, once each — this is
the invariant Python's dict/list pair maintains. -/
def CacheWF (st : SearchHandler.HandlerState) : Prop :=
  (st.cache.map Prod.fst).Nodup ∧ (st.cache.map Prod.fst).Perm st.order

instance (st : SearchHandler.HandlerState) : Decidable (CacheWF st) :=
  inferInstanceAs (Decidable (_ ∧ _))

/-! ### Facts about `_invalidate_cache` -/

theorem invalidate_disk (st : SearchHandler.HandlerState) (u f : ℤ) :
    (SearchHandler._invalidate_cache st u f).disk = st.disk := by
  by_cases hc : (alookup st.cache (SearchHandler._get_folder_path u f)).isSome
  · simp [SearchHandler._invalidate_cache, hc]
  · simp [SearchHandler._invalidate_cache, hc]

theorem invalidate_cacheSize (st : SearchHandler.HandlerState) (u f : ℤ) :
    (SearchHandler._invalidate_cache st u f).cacheSize = st.cacheSize := by
  by_cases hc : (alookup st.cache (SearchHandler._get_folder_path u f)).isSome
  · simp [SearchHandler._invalidate_cache, hc]
  · simp [SearchHandler._invalidate_cache, hc]

theorem alookup_invalidate_self (st : SearchHandler.HandlerState) (u f : ℤ)
    (h : (st.cache.map Prod.fst).Nodup) :
    alookup (SearchHandler._invalidate_cache st u f).cache (u, f) = none := by
  by_cases hc : (alookup st.cache (SearchHandler._get_folder_path u f)).isSome
  · simp only [SearchHandler._invalidate_cache, hc, if_true]
    exact alookup_aerase_self _ h
  · have hst : SearchHandler._invalidate_cache st u f = st := by
      simp [SearchHandler._invalidate_cache, hc]
    rw [hst]
    rcases ho : alookup st.cache (u, f) with _ | v
    · rfl
    · exact absurd (by rw [show SearchHandler._get_folder_path u f = (u, f)
        from rfl, ho]; rfl) hc

theorem invalidate_cache_length (st : SearchHandler.HandlerState) (u f : ℤ)
    (h : (alookup st.cache (u, f)).isSome) :
    (SearchHandler._invalidate_cache st u f).cache.length + 1
      = st.cache.length := by
  have hc : (alookup st.cache (SearchHandler._get_folder_path u f)).isSome := h
  simp only [SearchHandler._invalidate_cache, hc, if_true]
  exact length_aerase_of_mem ((alookup_isSome _ _).mp h)

/-! ### Concrete fixtures for witnesses and counterexamples -/

/-- Example external dependencies for concrete runs: every row reports
norm 1, and every query embeds to the single-component row `[1]`. -/
def exE : ExtDeps := ⟨fun _ => 1, fun _ => [1]⟩

/-- An index artifact holding one stored vector `[1]` under id 7. -/
def exIdx : FaissIndex := ⟨512, [(7, [1])]⟩

/-- An empty artifact store. -/
def noDisk : Key → Option FaissIndex := fun _ => none

/-- A store holding `exIdx` for scope `(1, 2)`. -/
def exDisk : Key → Option FaissIndex :=
  SearchHandler.diskWrite noDisk (1, 2) exIdx

/-- A handler state over `exDisk` with an empty cache. -/
def exSt : SearchHandler.HandlerState := ⟨exDisk, [], [], 50⟩

/-- A handler state with no artifacts and an empty cache. -/
def emptySt : SearchHandler.HandlerState := ⟨noDisk, [], [], 50⟩

/-! ### C5 — create on an existing scope -/

/-- C5 counterexample: `create_faiss_index` on scope `(1, 2)`, whose
artifact already exists and stores a vector, does not fail — it succeeds
and replaces the artifact with a fresh empty index, contradicting the
claim that it fails with `AlreadyExists` and leaves the artifact
unchanged. -/
theorem C5_counterexample :
    (SearchHandler.create_faiss_index exSt 1 2 512).disk (1, 2)
      = some ⟨512, []⟩
    ∧ exSt.disk (1, 2) = some ⟨512, [(7, [1])]⟩ := by
  constructor <;> rfl

/-- C5 (amended): `create_faiss_index` never fails; for every state it
writes a fresh empty index of the requested dimension at the scope's
canonical path, replacing any existing artifact there, leaving every
other scope's artifact and the cache untouched. -/
theorem C5_create_overwrites (st : SearchHandler.HandlerState)
    (u f : ℤ) (d : ℕ) :
    (SearchHandler.create_faiss_index st u f d).disk (u, f) = some ⟨d, []⟩
    ∧ (∀ k : Key, k ≠ (u, f) →
        (SearchHandler.create_faiss_index st u f d).disk k = st.disk k)
    ∧ (SearchHandler.create_faiss_index st u f d).cache = st.cache := by
  refine ⟨?_, ?_, rfl⟩
  · simp [SearchHandler.create_faiss_index, SearchHandler.diskWrite,
      SearchHandler._get_folder_path]
  · intro k hk
    simp [SearchHandler.create_faiss_index, SearchHandler.diskWrite,
      SearchHandler._get_folder_path, hk]

/-- C5 witness: instantiating the amended statement at a concrete state
and scope. -/
theorem C5_witness :
    (SearchHandler.create_faiss_index emptySt 1 2 512).disk (1, 2)
      = some ⟨512, []⟩
    ∧ (SearchHandler.create_faiss_index emptySt 1 2 512).disk (3, 4)
      = emptySt.disk (3, 4) :=
  ⟨(C5_create_overwrites emptySt 1 2 512).1,
   (C5_create_overwrites emptySt 1 2 512).2.1 (3, 4) (by decide)⟩

/-! ### C6 — batch-add error behaviour -/

/-- C6: `add_vectors_batch` fails with `ValueError` when the vector and
id counts differ, succeeds as a no-op on an empty batch, and fails with
`FileNotFoundError` when the scope has no artifact; in all three cases
the state (in particular the on-disk index store) is returned
unchanged. -/
theorem C6_batch_errors (E : ExtDeps) (st : SearchHandler.HandlerState)
    (u f : ℤ) (vectors : List (List ℚ)) (ids : List ℤ) :
    (vectors.length ≠ ids.length →
      SearchHandler.add_vectors_batch E st u f vectors ids
        = (.error .valueError, st))
    ∧ (vectors = [] → ids = [] →
      SearchHandler.add_vectors_batch E st u f vectors ids = (.ok (), st))
    ∧ (vectors.length = ids.length → vectors ≠ [] → st.disk (u, f) = none →
      SearchHandler.add_vectors_batch E st u f vectors ids
        = (.error .fileNotFound, st)) := by
  refine ⟨?_, ?_, ?_⟩
  · intro hne
    rw [SearchHandler.add_vectors_batch, if_pos hne]
  · intro hv hi
    subst hv; subst hi
    rfl
  · intro hlen hne hdisk
    have hlen' : ¬ vectors.length ≠ ids.length := by simp [hlen]
    have hnz : ¬ vectors.length = 0 := by simpa using hne
    simp only [SearchHandler.add_vectors_batch, if_neg hlen', if_neg hnz,
      SearchHandler._get_folder_path, hdisk]

/-- C6 witness: the three branches at concrete inputs (empty store,
scope `(1, 2)`). -/
theorem C6_witness :
    SearchHandler.add_vectors_batch exE emptySt 1 2 [[1]] []
      = (.error .valueError, emptySt)
    ∧ SearchHandler.add_vectors_batch exE emptySt 1 2 [] []
      = (.ok (), emptySt)
    ∧ SearchHandler.add_vectors_batch exE emptySt 1 2 [[1]] [5]
      = (.error .fileNotFound, emptySt) :=
  ⟨(C6_batch_errors exE emptySt 1 2 [[1]] []).1 (by decide),
   (C6_batch_errors exE emptySt 1 2 [] []).2.1 rfl rfl,
   (C6_batch_errors exE emptySt 1 2 [[1]] [5]).2.2 (by decide)
     (by decide) rfl⟩

/-! ### C9 — empty batch takes precedence over missing index -/

/-- C9: `add_vectors_batch` checks for the empty batch before checking
index existence, so an empty batch on a scope with no artifact succeeds
as a no-op instead of failing with `FileNotFoundError`. -/
theorem C9_empty_batch_precedes_missing (E : ExtDeps)
    (st : SearchHandler.HandlerState) (u f : ℤ)
    (_hdisk : st.disk (u, f) = none) :
    SearchHandler.add_vectors_batch E st u f [] [] = (.ok (), st) := by
  rfl

/-- C9 witness: an empty batch on the empty store for scope `(1, 2)`. -/
theorem C9_witness :
    noDisk (1, 2) = none
    ∧ SearchHandler.add_vectors_batch exE emptySt 1 2 [] []
      = (.ok (), emptySt) :=
  ⟨rfl, C9_empty_batch_precedes_missing exE emptySt 1 2 rfl⟩

/-! ### C10 — delete invalidates the cache before the existence check -/

/-- C10: `delete_faiss_index` on a scope with no artifact raises
`FileNotFoundError`, but has already removed the scope's cache entry:
the reported failure coexists with a mutated cache (one entry shorter
whenever the scope was cached). -/
theorem C10_delete_mutates_cache_on_failure
    (st : SearchHandler.HandlerState) (u f : ℤ)
    (hnodup : (st.cache.map Prod.fst).Nodup)
    (hdisk : st.disk (u, f) = none) :
    (SearchHandler.delete_faiss_index st u f).1 = .error .fileNotFound
    ∧ alookup (SearchHandler.delete_faiss_index st u f).2.cache (u, f) = none
    ∧ ((alookup st.cache (u, f)).isSome →
        (SearchHandler.delete_faiss_index st u f).2.cache.length + 1
          = st.cache.length) := by
  have hd1 : (SearchHandler._invalidate_cache st u f).disk (u, f) = none := by
    rw [invalidate_disk]; exact hdisk
  simp only [SearchHandler.delete_faiss_index, SearchHandler._get_folder_path,
    hd1]
  exact ⟨trivial, alookup_invalidate_self st u f hnodup,
    fun hs => invalidate_cache_length st u f hs⟩

/-- C10 witness: deleting scope `(1, 2)` from a state that caches it but
has no artifact for it reports failure with the cache entry gone. -/
theorem C10_witness :
    (SearchHandler.delete_faiss_index ⟨noDisk, [((1, 2), exIdx)], [(1, 2)], 50⟩
        1 2).1 = .error .fileNotFound
    ∧ alookup (SearchHandler.delete_faiss_index
        ⟨noDisk, [((1, 2), exIdx)], [(1, 2)], 50⟩ 1 2).2.cache (1, 2) = none
    ∧ (SearchHandler.delete_faiss_index
        ⟨noDisk, [((1, 2), exIdx)], [(1, 2)], 50⟩ 1 2).2.cache.length + 1
      = ([((1, 2), exIdx)] : List (Key × FaissIndex)).length := by
  have h := C10_delete_mutates_cache_on_failure
    ⟨noDisk, [((1, 2), exIdx)], [(1, 2)], 50⟩ 1 2 (by decide) rfl
  exact ⟨h.1, h.2.1, h.2.2 (by decide)⟩

/-! ### Facts about the folder loop -/

theorem folderCands_skip_owner (owners : List (ℤ × ℤ)) (qv : List ℚ) (k : ℕ)
    (st : SearchHandler.HandlerState) (fid : ℤ)
    (h : alookup owners fid = none) :
    SearchHandler.folderCands owners qv k st fid = ([], st) := by
  simp [SearchHandler.folderCands, h]

theorem folderCands_skip_missing (owners : List (ℤ × ℤ)) (qv : List ℚ)
    (k : ℕ) (st : SearchHandler.HandlerState) (fid u : ℤ)
    (howner : alookup owners fid = some u)
    (hdisk : st.disk (u, fid) = none) :
    SearchHandler.folderCands owners qv k st fid = ([], st) := by
  simp [SearchHandler.folderCands, howner, SearchHandler._get_folder_path,
    hdisk]

theorem folderCands_loaded (owners : List (ℤ × ℤ)) (qv : List ℚ) (k : ℕ)
    (st : SearchHandler.HandlerState) (fid u : ℤ) (idx : FaissIndex)
    (howner : alookup owners fid = some u)
    (hcache : alookup st.cache (u, fid) = none)
    (hdisk : st.disk (u, fid) = some idx) :
    (SearchHandler.folderCands owners qv k st fid).1
      = (idx.searchTop qv (min k idx.ntotal)).map
          (fun p => (p.1, p.2, fid)) := by
  by_cases hcap : st.cache.length + 1 > st.cacheSize
  · by_cases h0 : min k idx.ntotal = 0
    · simp [SearchHandler.folderCands, howner, SearchHandler._get_folder_path,
        hdisk, SearchHandler._load_index, hcache, hcap, h0,
        FaissIndex.searchTop]
    · simp [SearchHandler.folderCands, howner, SearchHandler._get_folder_path,
        hdisk, SearchHandler._load_index, hcache, hcap, h0]
  · by_cases h0 : min k idx.ntotal = 0
    · simp [SearchHandler.folderCands, howner, SearchHandler._get_folder_path,
        hdisk, SearchHandler._load_index, hcache, hcap, h0,
        FaissIndex.searchTop]
    · simp [SearchHandler.folderCands, howner, SearchHandler._get_folder_path,
        hdisk, SearchHandler._load_index, hcache, hcap, h0]

theorem collectCands_skips (owners : List (ℤ × ℤ)) (qv : List ℚ) (k : ℕ) :
    ∀ (fids : List ℤ) (st : SearchHandler.HandlerState),
      (∀ fid ∈ fids, alookup owners fid = none ∨
        ∀ u, alookup owners fid = some u → st.disk (u, fid) = none) →
      SearchHandler.collectCands owners qv k fids ([], st) = ([], st) := by
  intro fids
  induction fids with
  | nil => intro st _; rfl
  | cons fid rest ih =>
      intro st h
      have hskip : SearchHandler.folderCands owners qv k st fid = ([], st) := by
        rcases h fid (List.mem_cons_self fid rest) with h1 | h1
        · exact folderCands_skip_owner owners qv k st fid h1
        · rcases ho : alookup owners fid with _ | u
          · exact folderCands_skip_owner owners qv k st fid ho
          · exact folderCands_skip_missing owners qv k st fid u ho (h1 u ho)
      simp only [SearchHandler.collectCands, hskip, List.append_nil]
      exact ih st (fun f hf => h f (List.mem_cons_of_mem fid hf))

theorem toResult_indices (top : List Cand) :
    (SearchHandler.toResult top).2.1.headI = top.map (fun r => r.2.1) := rfl

theorem alookup_mem {κ V : Type} [DecidableEq κ] :
    ∀ (l : List (κ × V)) (q : κ) (v : V),
      alookup l q = some v → (q, v) ∈ l := by
  intro l
  induction l with
  | nil => intro q v h; cases h
  | cons p t ih =>
      intro q v h
      rw [alookup] at h
      by_cases hp : p.1 = q
      · rw [if_pos hp] at h
        have h2 : p = (q, v) := Prod.ext hp (Option.some.inj h)
        rw [← h2]
        exact List.mem_cons_self p t
      · rw [if_neg hp] at h
        exact List.mem_cons_of_mem p (ih q v h)

theorem mem_of_aerase {κ V : Type} [DecidableEq κ] :
    ∀ (l : List (κ × V)) (q : κ) (p : κ × V),
      p ∈ aerase l q → p ∈ l := by
  intro l
  induction l with
  | nil =>
      intro q p h
      simp [aerase] at h
  | cons a t ih =>
      intro q p h
      rw [aerase] at h
      by_cases ha : a.1 = q
      · rw [if_pos ha] at h
        exact List.mem_cons_of_mem a h
      · rw [if_neg ha] at h
        rcases List.mem_cons.mp h with h1 | h1
        · rw [h1]
          exact List.mem_cons_self a t
        · exact List.mem_cons_of_mem a (ih q p h1)

theorem folderCands_empty_contrib (owners : List (ℤ × ℤ)) (qv : List ℚ)
    (k : ℕ) (st : SearchHandler.HandlerState) (fid u : ℤ)
    (howner : alookup owners fid = some u)
    (hcacheE : ∀ p ∈ st.cache, (p.2 : FaissIndex).ntotal = 0)
    (hdiskE : ∀ i, st.disk (u, fid) = some i → i.ntotal = 0) :
    (SearchHandler.folderCands owners qv k st fid).1 = []
    ∧ (∀ p ∈ (SearchHandler.folderCands owners qv k st fid).2.cache,
        (p.2 : FaissIndex).ntotal = 0)
    ∧ (SearchHandler.folderCands owners qv k st fid).2.disk = st.disk := by
  rcases hd : st.disk (u, fid) with _ | i
  · rw [folderCands_skip_missing owners qv k st fid u howner hd]
    exact ⟨rfl, hcacheE, rfl⟩
  · have hnt : i.ntotal = 0 := hdiskE i hd
    rcases hc : alookup st.cache (u, fid) with _ | c
    · by_cases hcap : st.cacheSize < st.cache.length + 1
      · have heval : SearchHandler.folderCands owners qv k st fid
            = ([], { st with
                cache := aerase (((u, fid), i) :: st.cache)
                  (st.order ++ [(u, fid)]).headI,
                order := (st.order ++ [(u, fid)]).tail }) := by
          simp [SearchHandler.folderCands, howner,
            SearchHandler._get_folder_path, hd, SearchHandler._load_index,
            hc, hcap, hnt]
        rw [heval]
        refine ⟨rfl, ?_, rfl⟩
        intro p hp
        rcases List.mem_cons.mp (mem_of_aerase _ _ p hp) with h1 | h1
        · rw [h1]
          exact hnt
        · exact hcacheE p h1
      · have heval : SearchHandler.folderCands owners qv k st fid
            = ([], { st with cache := ((u, fid), i) :: st.cache,
                             order := st.order ++ [(u, fid)] }) := by
          simp [SearchHandler.folderCands, howner,
            SearchHandler._get_folder_path, hd, SearchHandler._load_index,
            hc, hcap, hnt]
        rw [heval]
        refine ⟨rfl, ?_, rfl⟩
        intro p hp
        rcases List.mem_cons.mp hp with h1 | h1
        · rw [h1]
          exact hnt
        · exact hcacheE p h1
    · have hct : c.ntotal = 0 := hcacheE ((u, fid), c)
        (alookup_mem st.cache (u, fid) c hc)
      have heval : SearchHandler.folderCands owners qv k st fid
          = ([], { st with
              order := st.order.erase (u, fid) ++ [(u, fid)] }) := by
        simp [SearchHandler.folderCands, howner,
          SearchHandler._get_folder_path, hd, SearchHandler._load_index,
          hc, hct]
      rw [heval]
      exact ⟨rfl, hcacheE, rfl⟩

theorem collectCands_no_contrib (owners : List (ℤ × ℤ)) (qv : List ℚ)
    (k : ℕ) :
    ∀ (fids : List ℤ) (st : SearchHandler.HandlerState),
      (∀ p ∈ st.cache, (p.2 : FaissIndex).ntotal = 0) →
      (∀ f ∈ fids, alookup owners f = none ∨
        ∀ u, alookup owners f = some u →
          ∀ i, st.disk (u, f) = some i → i.ntotal = 0) →
      (SearchHandler.collectCands owners qv k fids ([], st)).1 = [] := by
  intro fids
  induction fids with
  | nil => intro st _ _; rfl
  | cons fid rest ih =>
      intro st hcacheE hall
      rcases ho : alookup owners fid with _ | u
      · have hskip := folderCands_skip_owner owners qv k st fid ho
        simp only [SearchHandler.collectCands, hskip, List.nil_append]
        exact ih st hcacheE
          (fun f hf => hall f (List.mem_cons_of_mem fid hf))
      · have hde : ∀ i, st.disk (u, fid) = some i → i.ntotal = 0 := by
          rcases hall fid (List.mem_cons_self fid rest) with h1 | h1
          · rw [ho] at h1
            cases h1
          · exact h1 u ho
        obtain ⟨hfc1, hfc2, hfc3⟩ := folderCands_empty_contrib owners qv k
          st fid u ho hcacheE hde
        rcases hfc : SearchHandler.folderCands owners qv k st fid
          with ⟨cs, st'⟩
        rw [hfc] at hfc1 hfc2 hfc3
        have hfc1' : cs = [] := hfc1
        have hfc2' : ∀ p ∈ st'.cache, (p.2 : FaissIndex).ntotal = 0 := hfc2
        have hfc3' : st'.disk = st.disk := hfc3
        simp only [SearchHandler.collectCands, hfc, hfc1', List.nil_append]
        refine ih st' hfc2' ?_
        intro f hf
        rcases hall f (List.mem_cons_of_mem fid hf) with h2 | h2
        · exact Or.inl h2
        · refine Or.inr ?_
          intro u' hu' i hi
          rw [hfc3'] at hi
          exact h2 u' hu' i hi

/-- The empty index artifact of dimension 512. -/
def emptyIdx : FaissIndex := ⟨512, []⟩

/-- A store where only scope `(1, 7)` has an artifact — an empty one. -/
def c3Disk : Key → Option FaissIndex :=
  fun k => if k = (1, 7) then some emptyIdx else none

/-- Fresh handler state over `c3Disk`. -/
def c3St : SearchHandler.HandlerState := ⟨c3Disk, [], [], 50⟩

/-! ### C3 — skip-not-fail policy of the federated search -/

/-- C3: in `search_with_ownership`, a requested folder with no entry in
the owner map is skipped (contributing nothing and leaving the state
untouched), a resolvable folder whose artifact does not exist is
likewise skipped, a resolvable folder whose indexes (cached or stored)
are all empty contributes no candidates, and when every requested
folder is skipped or empty (in particular when none are requested) the
search returns the empty result triple — it never fails. -/
theorem C3_skip_not_fail (E : ExtDeps) (st : SearchHandler.HandlerState)
    (q : String) (fids : List ℤ) (owners : List (ℤ × ℤ)) (k : ℕ)
    (qv : List ℚ) (fid u : ℤ) :
    (alookup owners fid = none →
      SearchHandler.folderCands owners qv k st fid = ([], st))
    ∧ (alookup owners fid = some u → st.disk (u, fid) = none →
      SearchHandler.folderCands owners qv k st fid = ([], st))
    ∧ (alookup owners fid = some u →
        (∀ p ∈ st.cache, (p.2 : FaissIndex).ntotal = 0) →
        (∀ i, st.disk (u, fid) = some i → i.ntotal = 0) →
      (SearchHandler.folderCands owners qv k st fid).1 = [])
    ∧ ((∀ p ∈ st.cache, (p.2 : FaissIndex).ntotal = 0) →
       (∀ f ∈ fids, alookup owners f = none ∨
          ∀ u', alookup owners f = some u' →
            ∀ i, st.disk (u', f) = some i → i.ntotal = 0) →
      (SearchHandler.search_with_ownership E st q fids owners k).1
        = ([[]], [[]], [[]])) := by
  refine ⟨folderCands_skip_owner owners qv k st fid,
    fun h1 h2 => folderCands_skip_missing owners qv k st fid u h1 h2,
    fun h1 h2 h3 =>
      (folderCands_empty_contrib owners qv k st fid u h1 h2 h3).1, ?_⟩
  intro hcacheE hall
  rw [search_with_ownership_repr]
  show SearchHandler.toResult _ = _
  simp only [SearchHandler.allCandidates]
  rw [collectCands_no_contrib owners
    ((SearchHandler._normalize E [E.embedText q]).headI) k fids st hcacheE
    hall]
  simp [SearchHandler.toResult, SearchHandler.nlargestModel,
    List.insertionSort]

/-- C3 witness: searching folders `[3, 9, 7]` where folder 3 has no
owner, folder 9 resolves to user 1 with no artifact, and folder 7
resolves to user 1 with an existing but empty artifact yields the empty
result triple; the two skipped folders contribute nothing and leave the
state untouched, and the empty folder contributes no candidates. -/
theorem C3_witness :
    SearchHandler.folderCands [(9, 1), (7, 1)] [1] 5 c3St 3 = ([], c3St)
    ∧ SearchHandler.folderCands [(9, 1), (7, 1)] [1] 5 c3St 9 = ([], c3St)
    ∧ (SearchHandler.folderCands [(9, 1), (7, 1)] [1] 5 c3St 7).1 = []
    ∧ (SearchHandler.search_with_ownership exE c3St "query" [3, 9, 7]
        [(9, 1), (7, 1)] 5).1 = ([[]], [[]], [[]]) := by
  have h3 := C3_skip_not_fail exE c3St "query" [3, 9, 7] [(9, 1), (7, 1)]
    5 [1] 3 1
  have h9 := C3_skip_not_fail exE c3St "query" [3, 9, 7] [(9, 1), (7, 1)]
    5 [1] 9 1
  have h7 := C3_skip_not_fail exE c3St "query" [3, 9, 7] [(9, 1), (7, 1)]
    5 [1] 7 1
  have hd7 : ∀ i, c3St.disk (1, 7) = some i → i.ntotal = 0 := by
    intro i hi
    simp [c3St, c3Disk] at hi
    rw [← hi]
    rfl
  have hall : ∀ f ∈ ([3, 9, 7] : List ℤ),
      alookup [((9:ℤ), (1:ℤ)), (7, 1)] f = none ∨
      ∀ u', alookup [((9:ℤ), (1:ℤ)), (7, 1)] f = some u' →
        ∀ i, c3St.disk (u', f) = some i → i.ntotal = 0 := by
    intro f hf
    simp at hf
    rcases hf with rfl | rfl | rfl
    · exact Or.inl (by decide)
    · refine Or.inr ?_
      intro u' hu' i hi
      simp [alookup] at hu'
      rw [← hu'] at hi
      simp [c3St, c3Disk] at hi
    · refine Or.inr ?_
      intro u' hu' i hi
      simp [alookup] at hu'
      rw [← hu'] at hi
      exact hd7 i hi
  exact ⟨h3.1 (by decide), h9.2.1 (by decide) rfl,
    h7.2.2.1 (by decide) (by simp [c3St]) hd7,
    h3.2.2.2 (by simp [c3St]) hall⟩

/-! ### C4 — per-scope local k is min(k, ntotal) -/

/-- C4: when a folder resolves to owner `u`, is not cached, and its
artifact stores `idx`, the folder's local candidate list has exactly
`min k idx.ntotal` entries; consequently a search over that single
folder with `idx.ntotal < k` returns exactly `idx.ntotal` results, not
`k`. -/
theorem C4_local_k_min (E : ExtDeps) (st : SearchHandler.HandlerState)
    (q : String) (owners : List (ℤ × ℤ)) (k : ℕ) (fid u : ℤ)
    (idx : FaissIndex)
    (howner : alookup owners fid = some u)
    (hcache : alookup st.cache (u, fid) = none)
    (hdisk : st.disk (u, fid) = some idx) :
    (∀ qv, (SearchHandler.folderCands owners qv k st fid).1.length
      = min k idx.ntotal)
    ∧ (idx.ntotal < k →
      ((SearchHandler.search_with_ownership E st q [fid] owners k).1.2.1.headI).length
        = idx.ntotal) := by
  have hlen : ∀ qv, (SearchHandler.folderCands owners qv k st fid).1.length
      = min k idx.ntotal := by
    intro qv
    rw [folderCands_loaded owners qv k st fid u idx howner hcache hdisk]
    rw [List.length_map]
    unfold FaissIndex.searchTop
    rw [List.length_take, List.length_insertionSort, List.length_map]
    unfold FaissIndex.ntotal
    omega
  refine ⟨hlen, fun hN => ?_⟩
  have hall : SearchHandler.allCandidates E st q [fid] owners k
      = (SearchHandler.folderCands owners
          ((SearchHandler._normalize E [E.embedText q]).headI) k st fid).1 := by
    unfold SearchHandler.allCandidates
    rcases hfc : SearchHandler.folderCands owners
      ((SearchHandler._normalize E [E.embedText q]).headI) k st fid
      with ⟨cs, st'⟩
    simp [SearchHandler.collectCands, hfc]
  rw [search_with_ownership_repr]
  show (SearchHandler.toResult _).2.1.headI.length = _
  rw [toResult_indices, List.length_map, SearchHandler.nlargestModel_length,
    SearchHandler.heapFold_length, hall, hlen]
  omega

/-- C4 witness: folder 2 (owner 1) stores one vector; with `k = 5` the
local candidate list has `min 5 1 = 1` entry and the single-scope search
returns exactly one result. -/
theorem C4_witness :
    (SearchHandler.folderCands [(2, 1)] [1] 5 exSt 2).1.length
      = min 5 exIdx.ntotal
    ∧ ((SearchHandler.search_with_ownership exE exSt "q" [2]
          [(2, 1)] 5).1.2.1.headI).length = exIdx.ntotal := by
  have h := C4_local_k_min exE exSt "q" [(2, 1)] 5 2 1 exIdx rfl rfl rfl
  exact ⟨h.1 [1], h.2 (by decide)⟩

/-! ### Post-state of the add operations -/

theorem add_vector_disk (E : ExtDeps) (st : SearchHandler.HandlerState)
    (u f : ℤ) (v : List ℚ) (vid : ℤ) (idx : FaissIndex)
    (hdisk : st.disk (u, f) = some idx) :
    (SearchHandler.add_vector_to_faiss E st u f v vid).2.disk (u, f)
      = some { idx with
          entries := idx.entries ++ [(vid, SearchHandler.normalizeRow E v)] } := by
  simp only [SearchHandler.add_vector_to_faiss, SearchHandler._get_folder_path,
    hdisk]
  rw [invalidate_disk]
  simp [SearchHandler.diskWrite, SearchHandler._normalize,
    FaissIndex.add_with_ids]

theorem add_vector_cache (E : ExtDeps) (st : SearchHandler.HandlerState)
    (u f : ℤ) (v : List ℚ) (vid : ℤ) (idx : FaissIndex)
    (hnodup : (st.cache.map Prod.fst).Nodup)
    (hdisk : st.disk (u, f) = some idx) :
    alookup (SearchHandler.add_vector_to_faiss E st u f v vid).2.cache
      (u, f) = none := by
  simp only [SearchHandler.add_vector_to_faiss, SearchHandler._get_folder_path,
    hdisk]
  exact alookup_invalidate_self _ u f hnodup

theorem add_batch_disk (E : ExtDeps) (st : SearchHandler.HandlerState)
    (u f : ℤ) (vectors : List (List ℚ)) (ids : List ℤ) (idx : FaissIndex)
    (hlen : vectors.length = ids.length) (hne : vectors ≠ [])
    (hdisk : st.disk (u, f) = some idx) :
    (SearchHandler.add_vectors_batch E st u f vectors ids).2.disk (u, f)
      = some { idx with
          entries := idx.entries
            ++ ids.zip (vectors.map (SearchHandler.normalizeRow E)) } := by
  have hlen' : ¬ vectors.length ≠ ids.length := by simp [hlen]
  have hnz : ¬ vectors.length = 0 := by simpa using hne
  simp only [SearchHandler.add_vectors_batch, if_neg hlen', if_neg hnz,
    SearchHandler._get_folder_path, hdisk]
  rw [invalidate_disk]
  simp [SearchHandler.diskWrite, SearchHandler._normalize,
    FaissIndex.add_with_ids]

theorem add_batch_cache (E : ExtDeps) (st : SearchHandler.HandlerState)
    (u f : ℤ) (vectors : List (List ℚ)) (ids : List ℤ) (idx : FaissIndex)
    (hnodup : (st.cache.map Prod.fst).Nodup)
    (hlen : vectors.length = ids.length) (hne : vectors ≠ [])
    (hdisk : st.disk (u, f) = some idx) :
    alookup (SearchHandler.add_vectors_batch E st u f vectors ids).2.cache
      (u, f) = none := by
  have hlen' : ¬ vectors.length ≠ ids.length := by simp [hlen]
  have hnz : ¬ vectors.length = 0 := by simpa using hne
  simp only [SearchHandler.add_vectors_batch, if_neg hlen', if_neg hnz,
    SearchHandler._get_folder_path, hdisk]
  exact alookup_invalidate_self _ u f hnodup

theorem delete_cache (st : SearchHandler.HandlerState) (u f : ℤ)
    (hnodup : (st.cache.map Prod.fst).Nodup) :
    alookup (SearchHandler.delete_faiss_index st u f).2.cache (u, f)
      = none := by
  have h1 := alookup_invalidate_self st u f hnodup
  unfold SearchHandler.delete_faiss_index
  rcases hd : (SearchHandler._invalidate_cache st u f).disk
      (SearchHandler._get_folder_path u f) with _ | i
  · simpa [hd] using h1
  · simpa [hd] using h1

/-! ### Membership facts for search results -/

theorem mem_searchTop_of_ntotal_le (idx : FaissIndex) (qv : List ℚ) (n : ℕ)
    (hn : idx.ntotal ≤ n) (e : ℤ × List ℚ) (he : e ∈ idx.entries) :
    (dot qv e.2, e.1) ∈ idx.searchTop qv n := by
  unfold FaissIndex.searchTop
  rw [List.take_of_length_le
    (by rw [List.length_insertionSort, List.length_map]; exact hn)]
  rw [List.mem_insertionSort]
  exact List.mem_map_of_mem _ he

/-! ### C7 — normalization is applied and total -/

/-- C7: the zero-norm fixup makes the per-row divisor nonzero for every
(nonnegative) row norm, a zero-norm row is divided by the epsilon
`1e-10` instead of its norm, every vector stored by
`add_vector_to_faiss` / `add_vectors_batch` is stored as its normalized
image, and the query vector used by `search_with_ownership` is the
normalized embedding of the query text. -/
theorem C7_normalization_total_and_applied (E : ExtDeps)
    (st : SearchHandler.HandlerState) (u f : ℤ) (v : List ℚ) (vid : ℤ)
    (vectors : List (List ℚ)) (ids : List ℤ) (q : String) (fids : List ℤ)
    (owners : List (ℤ × ℤ)) (k : ℕ) (n : ℚ) (r : List ℚ)
    (idx : FaissIndex) :
    (0 ≤ n → fixNorm n ≠ 0)
    ∧ (E.nrm r = 0 →
        SearchHandler.normalizeRow E r = r.map (fun x => x / normEps))
    ∧ (st.disk (u, f) = some idx →
        (SearchHandler.add_vector_to_faiss E st u f v vid).2.disk (u, f)
          = some { idx with entries :=
              (idx.entries ++ [(vid, SearchHandler.normalizeRow E v)]) })
    ∧ (vectors.length = ids.length → vectors ≠ [] →
        st.disk (u, f) = some idx →
        (SearchHandler.add_vectors_batch E st u f vectors ids).2.disk (u, f)
          = some { idx with entries :=
              (idx.entries
                ++ ids.zip (vectors.map (SearchHandler.normalizeRow E))) })
    ∧ SearchHandler.search_with_ownership E st q fids owners k
        = (let qv := SearchHandler.normalizeRow E (E.embedText q)
           let hs := SearchHandler.searchFold owners qv k fids ([], st)
           (SearchHandler.toResult (SearchHandler.nlargestModel k hs.1),
            hs.2)) := by
  refine ⟨?_, ?_, add_vector_disk E st u f v vid idx,
    add_batch_disk E st u f vectors ids idx, ?_⟩
  · intro hn
    unfold fixNorm
    by_cases h0 : n = 0
    · rw [if_pos h0]
      unfold normEps
      norm_num
    · rw [if_neg h0]
      exact h0
  · intro hz
    unfold SearchHandler.normalizeRow
    rw [hz]
    rfl
  · unfold SearchHandler.search_with_ownership
    rfl

/-- C7 witness: the divisor is nonzero at norm `0` (the epsilon case), a
row whose norm oracle reports `0` is divided by the epsilon, a stored
vector is stored normalized, and the search uses the normalized query
embedding, all at concrete inputs. -/
theorem C7_witness :
    fixNorm 0 ≠ 0
    ∧ SearchHandler.normalizeRow ⟨fun _ => 0, fun _ => [1]⟩ [5]
        = [5].map (fun x => x / normEps)
    ∧ (SearchHandler.add_vector_to_faiss exE exSt 1 2 [3] 9).2.disk (1, 2)
        = some { exIdx with entries :=
            (exIdx.entries ++ [(9, SearchHandler.normalizeRow exE [3])]) }
    ∧ (SearchHandler.add_vectors_batch exE exSt 1 2 [[3]] [9]).2.disk (1, 2)
        = some { exIdx with entries :=
            (exIdx.entries
              ++ [9].zip ([[3]].map (SearchHandler.normalizeRow exE))) } := by
  have h1 := (C7_normalization_total_and_applied exE exSt 1 2 [3] 9 [[3]] [9]
    "q" [] [] 5 0 [5] exIdx).1 (le_refl 0)
  have h2 := (C7_normalization_total_and_applied
    ⟨fun _ => 0, fun _ => [1]⟩ exSt 1 2 [3] 9 [[3]] [9]
    "q" [] [] 5 0 [5] exIdx).2.1 rfl
  have h3 := (C7_normalization_total_and_applied exE exSt 1 2 [3] 9 [[3]] [9]
    "q" [] [] 5 0 [5] exIdx).2.2.1 rfl
  have h4 := (C7_normalization_total_and_applied exE exSt 1 2 [3] 9 [[3]] [9]
    "q" [] [] 5 0 [5] exIdx).2.2.2.1 rfl (by decide) rfl
  exact ⟨h1, h2, h3, h4⟩

/-! ### C1 — cache coherence of the mutation paths -/

/-- C1: each mutating operation (`add_vector_to_faiss`,
`add_vectors_batch`, `delete_faiss_index`) leaves no cache entry for the
mutated scope; consequently a federated search through the cache
performed right after a (completed) single add observes the newly added
vector — its id appears in the returned index list — even if the scope
was cached (stale) before the add. -/
theorem C1_cache_coherence (E : ExtDeps) (st : SearchHandler.HandlerState)
    (u f : ℤ) (v : List ℚ) (vid : ℤ) (vectors : List (List ℚ))
    (ids : List ℤ) (q : String) (k : ℕ) (idx : FaissIndex)
    (hnodup : (st.cache.map Prod.fst).Nodup) :
    (st.disk (u, f) = some idx →
      alookup (SearchHandler.add_vector_to_faiss E st u f v vid).2.cache
        (u, f) = none)
    ∧ (vectors.length = ids.length → vectors ≠ [] →
        st.disk (u, f) = some idx →
      alookup (SearchHandler.add_vectors_batch E st u f vectors ids).2.cache
        (u, f) = none)
    ∧ alookup (SearchHandler.delete_faiss_index st u f).2.cache (u, f) = none
    ∧ (st.disk (u, f) = some idx → idx.ntotal + 1 ≤ k →
      vid ∈ (SearchHandler.search_with_ownership E
          (SearchHandler.add_vector_to_faiss E st u f v vid).2 q [f]
          [(f, u)] k).1.2.1.headI) := by
  refine ⟨fun hd => add_vector_cache E st u f v vid idx hnodup hd,
    fun h1 h2 h3 => add_batch_cache E st u f vectors ids idx hnodup h1 h2 h3,
    delete_cache st u f hnodup, ?_⟩
  intro hdisk hk
  set stA := (SearchHandler.add_vector_to_faiss E st u f v vid).2 with hstA
  set idx1 : FaissIndex := { idx with entries :=
    (idx.entries ++ [(vid, SearchHandler.normalizeRow E v)]) } with hidx1
  have hcA : alookup stA.cache (u, f) = none :=
    add_vector_cache E st u f v vid idx hnodup hdisk
  have hdA : stA.disk (u, f) = some idx1 :=
    add_vector_disk E st u f v vid idx hdisk
  have howner : alookup [(f, u)] f = some u := by simp [alookup]
  have hall : SearchHandler.allCandidates E stA q [f] [(f, u)] k
      = (SearchHandler.folderCands [(f, u)]
          ((SearchHandler._normalize E [E.embedText q]).headI) k stA f).1 := by
    unfold SearchHandler.allCandidates
    rcases hfc : SearchHandler.folderCands [(f, u)]
      ((SearchHandler._normalize E [E.embedText q]).headI) k stA f
      with ⟨cs, st'⟩
    simp [SearchHandler.collectCands, hfc]
  have hload := folderCands_loaded [(f, u)]
    ((SearchHandler._normalize E [E.embedText q]).headI) k stA f u idx1
    howner hcA hdA
  have hN1 : idx1.entries.length = idx.entries.length + 1 := by
    rw [hidx1]
    simp
  have hk' : idx.entries.length + 1 ≤ k := hk
  have hmin : min k idx1.ntotal = idx1.ntotal := by
    unfold FaissIndex.ntotal
    omega
  have hmem : ((dot ((SearchHandler._normalize E [E.embedText q]).headI)
        (SearchHandler.normalizeRow E v), vid, f) : Cand)
      ∈ SearchHandler.allCandidates E stA q [f] [(f, u)] k := by
    rw [hall, hload, hmin]
    refine List.mem_map.mpr
      ⟨(dot ((SearchHandler._normalize E [E.embedText q]).headI)
          (SearchHandler.normalizeRow E v), vid), ?_, rfl⟩
    refine mem_searchTop_of_ntotal_le idx1 _ idx1.ntotal (le_refl _)
      (vid, SearchHandler.normalizeRow E v) ?_
    rw [hidx1]
    simp
  have hlenall : (SearchHandler.allCandidates E stA q [f] [(f, u)] k).length
      ≤ k := by
    rw [hall, hload, hmin, List.length_map]
    unfold FaissIndex.searchTop
    rw [List.length_take, List.length_insertionSort, List.length_map]
    unfold FaissIndex.ntotal
    omega
  rw [search_with_ownership_repr]
  show vid ∈ (SearchHandler.toResult _).2.1.headI
  rw [toResult_indices]
  have h1 : (List.foldl (SearchHandler.pushBounded k) []
      (SearchHandler.allCandidates E stA q [f] [(f, u)] k)).length ≤ k := by
    rw [SearchHandler.heapFold_length]
    omega
  have h5 : (SearchHandler.nlargestModel k
      (List.foldl (SearchHandler.pushBounded k) []
        (SearchHandler.allCandidates E stA q [f] [(f, u)] k))).Perm
      (SearchHandler.allCandidates E stA q [f] [(f, u)] k) := by
    refine (SearchHandler.nlargestModel_perm_of_le k _ h1).trans ?_
    refine (SearchHandler.heapFold_perm_topk k _).trans ?_
    rw [List.take_of_length_le
      (by rw [List.length_insertionSort]; exact hlenall)]
    exact List.perm_insertionSort candGE _
  exact List.mem_map.mpr ⟨_, h5.mem_iff.mpr hmem, rfl⟩

/-- C1 witness: adding vector `[3]` with id 9 to scope `(1, 2)` in a
state where a stale index for that scope is cached, then searching that
scope with `k = 5`, finds id 9 among the returned indices; the three
invalidation conjuncts are exercised at the same state. -/
theorem C1_witness :
    (alookup (SearchHandler.add_vector_to_faiss exE
        ⟨exDisk, [((1, 2), ⟨512, []⟩)], [(1, 2)], 50⟩ 1 2 [3] 9).2.cache
      (1, 2) = none)
    ∧ (alookup (SearchHandler.add_vectors_batch exE
        ⟨exDisk, [((1, 2), ⟨512, []⟩)], [(1, 2)], 50⟩ 1 2 [[3]] [9]).2.cache
      (1, 2) = none)
    ∧ (alookup (SearchHandler.delete_faiss_index
        ⟨exDisk, [((1, 2), ⟨512, []⟩)], [(1, 2)], 50⟩ 1 2).2.cache
      (1, 2) = none)
    ∧ 9 ∈ (SearchHandler.search_with_ownership exE
        (SearchHandler.add_vector_to_faiss exE
          ⟨exDisk, [((1, 2), ⟨512, []⟩)], [(1, 2)], 50⟩ 1 2 [3] 9).2 "q"
        [2] [(2, 1)] 5).1.2.1.headI := by
  have h := C1_cache_coherence exE
    ⟨exDisk, [((1, 2), ⟨512, []⟩)], [(1, 2)], 50⟩ 1 2 [3] 9 [[3]] [9] "q" 5
    exIdx (by decide)
  exact ⟨h.1 rfl, h.2.1 rfl (by decide) rfl, h.2.2.1,
    h.2.2.2 rfl (by decide)⟩

/-! ### C8 — LRU cache discipline of `_load_index` -/

theorem headI_append_of_ne_nil {α : Type} [Inhabited α] {l : List α}
    (l' : List α) (h : l ≠ []) : (l ++ l').headI = l.headI := by
  cases l with
  | nil => exact absurd rfl h
  | cons a t => rfl

/-- C8: `_load_index` on a cached scope returns the cached index and
only moves the scope to most-recently-used position; on an uncached
scope it loads from disk and inserts, evicting exactly the
least-recently-used key (the head of the access order) when the
capacity is exceeded; the cache never exceeds its capacity, the disk is
never written, and cache invalidation never grows the cache. -/
theorem C8_lru_cache (st : SearchHandler.HandlerState) (u f : ℤ)
    (idx : FaissIndex) :
    (alookup st.cache (u, f) = some idx →
      SearchHandler._load_index st u f
        = (.ok idx, { st with order := st.order.erase (u, f) ++ [(u, f)] }))
    ∧ (alookup st.cache (u, f) = none → st.disk (u, f) = some idx →
        st.cache.length + 1 ≤ st.cacheSize →
      SearchHandler._load_index st u f
        = (.ok idx, { st with cache := (((u, f), idx) :: st.cache),
                              order := (st.order ++ [(u, f)]) }))
    ∧ (alookup st.cache (u, f) = none → st.disk (u, f) = some idx →
        st.cacheSize < st.cache.length + 1 → CacheWF st → st.order ≠ [] →
      (SearchHandler._load_index st u f).1 = .ok idx
      ∧ alookup (SearchHandler._load_index st u f).2.cache
          st.order.headI = none
      ∧ (∀ k' : Key, k' ≠ st.order.headI →
          alookup (SearchHandler._load_index st u f).2.cache k'
            = alookup (((u, f), idx) :: st.cache) k'))
    ∧ (CacheWF st → st.cache.length ≤ st.cacheSize →
        (SearchHandler._load_index st u f).2.cache.length ≤ st.cacheSize)
    ∧ (SearchHandler._load_index st u f).2.disk = st.disk
    ∧ (SearchHandler._invalidate_cache st u f).cache.length
        ≤ st.cache.length := by
  have hhit : ∀ i, alookup st.cache (u, f) = some i →
      SearchHandler._load_index st u f
        = (.ok i, { st with order := st.order.erase (u, f) ++ [(u, f)] }) := by
    intro i hi
    simp only [SearchHandler._load_index, SearchHandler._get_folder_path, hi]
  have hmiss_lo : ∀ i, alookup st.cache (u, f) = none →
      st.disk (u, f) = some i →
      st.cache.length + 1 ≤ st.cacheSize →
      SearchHandler._load_index st u f
        = (.ok i, { st with cache := (((u, f), i) :: st.cache),
                            order := (st.order ++ [(u, f)]) }) := by
    intro i hm hd hcap
    have hcond : ¬ ((((u, f), i) :: st.cache).length > st.cacheSize) := by
      simp only [List.length_cons]
      omega
    simp only [SearchHandler._load_index, SearchHandler._get_folder_path,
      hm, hd, if_neg hcond]
  have hmiss_hi : ∀ i, alookup st.cache (u, f) = none →
      st.disk (u, f) = some i → st.cacheSize < st.cache.length + 1 →
      SearchHandler._load_index st u f
        = (.ok i, { st with cache := (aerase (((u, f), i) :: st.cache)
                              ((st.order ++ [(u, f)]).headI)),
                            order := ((st.order ++ [(u, f)]).tail) }) := by
    intro i hm hd hcap
    have hcond : ((((u, f), i) :: st.cache).length > st.cacheSize) := by
      simp only [List.length_cons]
      omega
    simp only [SearchHandler._load_index, SearchHandler._get_folder_path,
      hm, hd, if_pos hcond]
  refine ⟨hhit idx, hmiss_lo idx, ?_, ?_, ?_, ?_⟩
  · intro hm hd hcap hwf horder
    have hkeys : (((((u, f), idx) :: st.cache)).map Prod.fst).Nodup := by
      rw [List.map_cons]
      exact List.nodup_cons.mpr ⟨fun hmem =>
        (alookup_eq_none st.cache (u, f)).mp hm hmem, hwf.1⟩
    rw [hmiss_hi idx hm hd hcap]
    rw [headI_append_of_ne_nil [(u, f)] horder]
    exact ⟨rfl, alookup_aerase_self st.order.headI hkeys,
      fun k' hk' => alookup_aerase_ne _ hk'⟩
  · intro hwf hsize
    rcases hc : alookup st.cache (u, f) with _ | i
    · rcases hd : st.disk (u, f) with _ | i
      · simp only [SearchHandler._load_index, SearchHandler._get_folder_path,
          hc, hd]
        exact hsize
      · by_cases hcap : st.cache.length + 1 ≤ st.cacheSize
        · rw [hmiss_lo i hc hd hcap]
          simpa using hcap
        · push_neg at hcap
          rw [hmiss_hi i hc hd hcap]
          dsimp only
          have holdest : (st.order ++ [(u, f)]).headI
              ∈ ((((u, f), i) :: st.cache)).map Prod.fst := by
            cases horder : st.order with
            | nil => simp
            | cons o t =>
                have hmem : o ∈ st.cache.map Prod.fst :=
                  hwf.2.mem_iff.mpr (by rw [horder]; simp)
                simp [List.headI, hmem]
          have hlen := length_aerase_of_mem holdest
          simp only [List.length_cons] at hlen
          omega
    · rw [hhit i hc]
      exact hsize
  · rcases hc : alookup st.cache (u, f) with _ | i
    · rcases hd : st.disk (u, f) with _ | i
      · simp only [SearchHandler._load_index, SearchHandler._get_folder_path,
          hc, hd]
      · by_cases hcap : st.cache.length + 1 ≤ st.cacheSize
        · rw [hmiss_lo i hc hd hcap]
        · push_neg at hcap
          rw [hmiss_hi i hc hd hcap]
    · rw [hhit i hc]
  · by_cases hc : (alookup st.cache
        (SearchHandler._get_folder_path u f)).isSome
    · have := invalidate_cache_length st u f hc
      omega
    · simp [SearchHandler._invalidate_cache, hc]

/-- A state whose cache already holds scope `(1, 2)`. -/
def cachedSt : SearchHandler.HandlerState :=
  ⟨exDisk, [((1, 2), exIdx)], [(1, 2)], 50⟩

/-- A capacity-1 state caching scope `(3, 4)`, about to evict. -/
def smallSt : SearchHandler.HandlerState :=
  ⟨exDisk, [((3, 4), exIdx)], [(3, 4)], 1⟩

/-- C8 witness: a cache hit returns the cached index moving it to
most-recently-used, a miss inserts the loaded index, and a miss at
capacity evicts exactly the least-recently-used key while keeping the
loaded one and respecting the capacity bound. -/
theorem C8_witness :
    SearchHandler._load_index cachedSt 1 2
      = (.ok exIdx, { cachedSt with
          order := (cachedSt.order.erase (1, 2) ++ [(1, 2)]) })
    ∧ SearchHandler._load_index exSt 1 2
      = (.ok exIdx, { exSt with cache := (((1, 2), exIdx) :: exSt.cache),
                                order := (exSt.order ++ [(1, 2)]) })
    ∧ alookup (SearchHandler._load_index smallSt 1 2).2.cache
        smallSt.order.headI = none
    ∧ alookup (SearchHandler._load_index smallSt 1 2).2.cache (1, 2)
        = alookup (((1, 2), exIdx) :: smallSt.cache) (1, 2)
    ∧ (SearchHandler._load_index smallSt 1 2).2.cache.length
        ≤ smallSt.cacheSize := by
  have ha := (C8_lru_cache cachedSt 1 2 exIdx).1 rfl
  have hb := (C8_lru_cache exSt 1 2 exIdx).2.1 rfl rfl (by decide)
  have hcp := (C8_lru_cache smallSt 1 2 exIdx).2.2.1 rfl rfl (by decide)
    (by decide) (by decide)
  have hdd := (C8_lru_cache smallSt 1 2 exIdx).2.2.2.1 (by decide) (by decide)
  exact ⟨ha, hb, hcp.2.1, hcp.2.2 (1, 2) (by decide), hdd⟩

/-! ### C2 — federated merge vs. full sort -/

/-- Modelled from the spec's words ("the top-k obtained by concatenating
all per-scope candidates and fully sorting them descending by score"):
a stable sort of the concatenated candidate stream by score alone
(ties stay in stream order), truncated to `k`. Used as the comparison
point for the heap merge; it is *not* taken from the source. -/
def specTopKByScore (k : ℕ) (cands : List Cand) : List Cand :=
  (cands.insertionSort scoreGE).take k

theorem toResult_scores (top : List Cand) :
    (SearchHandler.toResult top).1.headI = top.map (fun r => r.1) := rfl

/-- When all candidate scores are distinct, sorting by the full Python
tuple order agrees with the stable sort by score alone. -/
theorem sort_eq_of_distinct_scores (l : List Cand)
    (h : (l.map (fun c => c.1)).Nodup) :
    l.insertionSort candGE = l.insertionSort scoreGE := by
  haveI hanti : IsAntisymm Cand (fun a b : Cand => b.1 < a.1) :=
    ⟨fun a b h1 h2 => absurd (h1.trans h2) (lt_irrefl _)⟩
  have hperm : (l.insertionSort candGE).Perm (l.insertionSort scoreGE) :=
    (List.perm_insertionSort candGE l).trans
      (List.perm_insertionSort scoreGE l).symm
  refine List.eq_of_perm_of_sorted (r := fun a b : Cand => b.1 < a.1)
    hperm ?_ ?_
  · have hs : (l.insertionSort candGE).Pairwise candGE :=
      List.sorted_insertionSort candGE l
    have hnd : ((l.insertionSort candGE).map (fun c => c.1)).Nodup :=
      (((List.perm_insertionSort candGE l).map _).nodup_iff).mpr h
    have hne : (l.insertionSort candGE).Pairwise (fun a b => a.1 ≠ b.1) :=
      List.pairwise_map.mp hnd
    exact (hs.and hne).imp
      (fun hab => lt_of_le_of_ne (candLE_score hab.1) (Ne.symm hab.2))
  · have hs : (l.insertionSort scoreGE).Pairwise scoreGE :=
      List.sorted_insertionSort scoreGE l
    have hnd : ((l.insertionSort scoreGE).map (fun c => c.1)).Nodup :=
      (((List.perm_insertionSort scoreGE l).map _).nodup_iff).mpr h
    have hne : (l.insertionSort scoreGE).Pairwise (fun a b => a.1 ≠ b.1) :=
      List.pairwise_map.mp hnd
    exact (hs.and hne).imp
      (fun hab => lt_of_le_of_ne hab.1 (Ne.symm hab.2))

/-- C2 (amended): the list `search_with_ownership` returns is
`heapq.nlargest(k, heap)` over the bounded heap's final array: as a
multiset it is exactly the top-`k` of the concatenated per-scope
candidates under the full Python tuple order `(score, image id,
folder id)` — the comparison the heap admits and evicts by — and it is
presented stably sorted descending on the score alone (`nlargest`'s
key). When all candidate scores are pairwise distinct this equals the
spec's concatenate-and-fully-sort-descending-by-score reference, and
the returned score row is always sorted descending with the
originating folder id retained alongside each result. -/
theorem C2_heap_merge_topk (E : ExtDeps) (st : SearchHandler.HandlerState)
    (q : String) (fids : List ℤ) (owners : List (ℤ × ℤ)) (k : ℕ) :
    (SearchHandler.search_with_ownership E st q fids owners k).1
      = SearchHandler.toResult (SearchHandler.nlargestModel k
          (List.foldl (SearchHandler.pushBounded k) []
            (SearchHandler.allCandidates E st q fids owners k)))
    ∧ (SearchHandler.nlargestModel k
        (List.foldl (SearchHandler.pushBounded k) []
          (SearchHandler.allCandidates E st q fids owners k))).Perm
        (((SearchHandler.allCandidates E st q fids owners k).insertionSort
            candGE).take k)
    ∧ (((SearchHandler.allCandidates E st q fids owners k).map
          (fun c => c.1)).Nodup →
        (SearchHandler.search_with_ownership E st q fids owners k).1
          = SearchHandler.toResult (specTopKByScore k
              (SearchHandler.allCandidates E st q fids owners k)))
    ∧ ((SearchHandler.search_with_ownership E st q fids owners
          k).1.1.headI).Sorted (fun a b : ℚ => b ≤ a) := by
  have hrepr := search_with_ownership_repr E st q fids owners k
  have hlen1 : (List.foldl (SearchHandler.pushBounded k) []
      (SearchHandler.allCandidates E st q fids owners k)).length ≤ k := by
    rw [SearchHandler.heapFold_length]
    omega
  have hperm1 : (SearchHandler.nlargestModel k
      (List.foldl (SearchHandler.pushBounded k) []
        (SearchHandler.allCandidates E st q fids owners k))).Perm
      (((SearchHandler.allCandidates E st q fids owners k).insertionSort
          candGE).take k) :=
    (SearchHandler.nlargestModel_perm_of_le k _ hlen1).trans
      (SearchHandler.heapFold_perm_topk k _)
  refine ⟨by rw [hrepr], hperm1, ?_, ?_⟩
  · intro hnd
    rw [hrepr]
    show SearchHandler.toResult _ = _
    refine congrArg SearchHandler.toResult ?_
    have hperm2 : (SearchHandler.nlargestModel k
        (List.foldl (SearchHandler.pushBounded k) []
          (SearchHandler.allCandidates E st q fids owners k))).Perm
        (specTopKByScore k
          (SearchHandler.allCandidates E st q fids owners k)) := by
      refine hperm1.trans ?_
      rw [sort_eq_of_distinct_scores _ hnd]
      exact List.Perm.refl _
    have hndR : ((specTopKByScore k
        (SearchHandler.allCandidates E st q fids owners k)).map
          (fun c => c.1)).Nodup := by
      have hnds : (((SearchHandler.allCandidates E st q fids owners
          k).insertionSort scoreGE).map (fun c => c.1)).Nodup :=
        (((List.perm_insertionSort scoreGE _).map _).nodup_iff).mpr hnd
      exact List.Nodup.sublist ((List.take_sublist k _).map _) hnds
    have hs1 : (SearchHandler.nlargestModel k
        (List.foldl (SearchHandler.pushBounded k) []
          (SearchHandler.allCandidates E st q fids owners k))).Pairwise
            scoreGE := SearchHandler.nlargestModel_sorted k _
    have hs2 : (specTopKByScore k
        (SearchHandler.allCandidates E st q fids owners k)).Pairwise
          scoreGE :=
      (List.sorted_insertionSort scoreGE _).sublist (List.take_sublist _ _)
    haveI hanti : IsAntisymm Cand (fun a b : Cand => b.1 < a.1) :=
      ⟨fun a b h1 h2 => absurd (h1.trans h2) (lt_irrefl _)⟩
    refine List.eq_of_perm_of_sorted (r := fun a b : Cand => b.1 < a.1)
      hperm2 ?_ ?_
    · have hndL : ((SearchHandler.nlargestModel k
          (List.foldl (SearchHandler.pushBounded k) []
            (SearchHandler.allCandidates E st q fids owners k))).map
              (fun c => c.1)).Nodup :=
        ((hperm2.map _).nodup_iff).mpr hndR
      exact (hs1.and (List.pairwise_map.mp hndL)).imp
        (fun hab => lt_of_le_of_ne hab.1 (Ne.symm hab.2))
    · exact (hs2.and (List.pairwise_map.mp hndR)).imp
        (fun hab => lt_of_le_of_ne hab.1 (Ne.symm hab.2))
  · rw [hrepr]
    show ((SearchHandler.toResult _).1.headI).Sorted _
    rw [toResult_scores]
    have hs1 : (SearchHandler.nlargestModel k
        (List.foldl (SearchHandler.pushBounded k) []
          (SearchHandler.allCandidates E st q fids owners k))).Pairwise
            scoreGE := SearchHandler.nlargestModel_sorted k _
    exact List.pairwise_map.mpr (hs1.imp (fun hab => hab))

/-- One-vector index storing `[1]` under id 3 (folder 2's artifact). -/
def idxTie3 : FaissIndex := ⟨512, [(3, [1])]⟩

/-- One-vector index storing `[1]` under id 5 (folder 4's artifact). -/
def idxTie5 : FaissIndex := ⟨512, [(5, [1])]⟩

/-- Two folders owned by user 1 whose single vectors tie on score. -/
def tieDisk : Key → Option FaissIndex :=
  fun k => if k = (1, 2) then some idxTie3
    else if k = (1, 4) then some idxTie5 else none

/-- Fresh handler state over `tieDisk`. -/
def tieSt : SearchHandler.HandlerState := ⟨tieDisk, [], [], 50⟩

theorem allCands_tie_eval :
    SearchHandler.allCandidates exE tieSt "q" [2, 4] [(2, 1), (4, 1)] 1
      = [(1, 3, 2), (1, 5, 4)] := by
  have hqv : (SearchHandler._normalize exE [exE.embedText "q"]).headI
      = [1] := by
    norm_num [SearchHandler._normalize, SearchHandler.normalizeRow, exE,
      fixNorm, normEps]
  simp only [SearchHandler.allCandidates]
  rw [hqv]
  norm_num [SearchHandler.collectCands, SearchHandler.folderCands,
    SearchHandler._load_index, SearchHandler._get_folder_path, alookup,
    tieSt, tieDisk, idxTie3, idxTie5, FaissIndex.searchTop,
    FaissIndex.ntotal, dot, List.insertionSort, List.orderedInsert, hitGE,
    Prod.mk.injEq]

/-- C2 counterexample: with two folders whose single candidates tie on
score (folder 2: image id 3, folder 4: image id 5, both score 1) and
`k = 1`, the heap merge returns id 5 — `heapq` breaks the tie by the
full Python tuple, evicting the smaller image id — while concatenating
the candidates and fully sorting them descending by score (a stable
sort) returns id 3; the claimed equality fails. -/
theorem C2_counterexample :
    (SearchHandler.search_with_ownership exE tieSt "q" [2, 4]
        [(2, 1), (4, 1)] 1).1
      ≠ SearchHandler.toResult (specTopKByScore 1
          (SearchHandler.allCandidates exE tieSt "q" [2, 4]
            [(2, 1), (4, 1)] 1)) := by
  have hp1 : SearchHandler.pushBounded 1 [] ((1:ℚ),(3:ℤ),(2:ℤ))
      = [(1,3,2)] := by
    have hh : SearchHandler.IsHeap [] := by
      intro i hi0 hil
      simp at hil
    have hP := SearchHandler.heappush_spec [] ((1:ℚ),(3:ℤ),(2:ℤ)) hh
    rw [SearchHandler.pushBounded, if_pos (by decide)]
    exact List.perm_singleton.mp hP.2.1
  have hp2 : SearchHandler.pushBounded 1 [((1:ℚ),(3:ℤ),(2:ℤ))]
      ((1:ℚ),(5:ℤ),(4:ℤ)) = [(1,5,4)] := by
    have hh : SearchHandler.IsHeap [((1:ℚ),(3:ℤ),(2:ℤ))] := by
      intro i hi0 hil
      simp at hil
      omega
    have hQ := SearchHandler.heappushpop_spec [((1:ℚ),(3:ℤ),(2:ℤ))]
      ((1:ℚ),(5:ℤ),(4:ℤ)) hh
    have h3 := hQ.2.2.1 ⟨by decide, by decide⟩
    rw [SearchHandler.pushBounded, if_neg (by decide)]
    exact List.perm_singleton.mp (by simpa using h3)
  rw [search_with_ownership_repr, allCands_tie_eval, List.foldl_cons, hp1,
    List.foldl_cons, hp2, List.foldl_nil]
  decide

/-- Fidelity check of the heap embedding against the tied case at
`k = 2`: both tied candidates fit in the heap (array `[(1,3,2),
(1,5,4)]` in push order) and `nlargest`'s stable score sort presents
them in array order — image ids `[3, 5]`, exactly what the Python
program prints, not the tuple-descending order `[5, 3]`. -/
theorem nlargest_tie_k2 :
    SearchHandler.nlargestModel 2
        (List.foldl (SearchHandler.pushBounded 2) []
          [((1:ℚ),(3:ℤ),(2:ℤ)), ((1:ℚ),(5:ℤ),(4:ℤ))])
      = [(1,3,2), (1,5,4)] := by
  have hh : SearchHandler.IsHeap [] := by
    intro i hi0 hil
    simp at hil
  have hp1 : SearchHandler.pushBounded 2 [] ((1:ℚ),(3:ℤ),(2:ℤ))
      = [(1,3,2)] := by
    have hP := SearchHandler.heappush_spec [] ((1:ℚ),(3:ℤ),(2:ℤ)) hh
    rw [SearchHandler.pushBounded, if_pos (by decide)]
    exact List.perm_singleton.mp hP.2.1
  have hp2 : SearchHandler.pushBounded 2 [((1:ℚ),(3:ℤ),(2:ℤ))]
      ((1:ℚ),(5:ℤ),(4:ℤ)) = [(1,3,2), (1,5,4)] := by
    rw [SearchHandler.pushBounded, if_pos (by decide),
        SearchHandler.heappush, SearchHandler._siftdown,
        SearchHandler.siftdownLoop]
    norm_num [SearchHandler.parentIdx, candLT, List.getD]
  rw [List.foldl_cons, hp1, List.foldl_cons, hp2, List.foldl_nil]
  decide

/-- One-vector index storing `[2]` under id 3. -/
def idxD3 : FaissIndex := ⟨512, [(3, [2])]⟩

/-- One-vector index storing `[3]` under id 5. -/
def idxD5 : FaissIndex := ⟨512, [(5, [3])]⟩

/-- Two folders owned by user 1 with distinct candidate scores. -/
def dDisk : Key → Option FaissIndex :=
  fun k => if k = (1, 2) then some idxD3
    else if k = (1, 4) then some idxD5 else none

/-- Fresh handler state over `dDisk`. -/
def dSt : SearchHandler.HandlerState := ⟨dDisk, [], [], 50⟩

theorem allCands_distinct_eval :
    SearchHandler.allCandidates exE dSt "q" [2, 4] [(2, 1), (4, 1)] 1
      = [(2, 3, 2), (3, 5, 4)] := by
  have hqv : (SearchHandler._normalize exE [exE.embedText "q"]).headI
      = [1] := by
    norm_num [SearchHandler._normalize, SearchHandler.normalizeRow, exE,
      fixNorm, normEps]
  simp only [SearchHandler.allCandidates]
  rw [hqv]
  norm_num [SearchHandler.collectCands, SearchHandler.folderCands,
    SearchHandler._load_index, SearchHandler._get_folder_path, alookup,
    dSt, dDisk, idxD3, idxD5, FaissIndex.searchTop,
    FaissIndex.ntotal, dot, List.insertionSort, List.orderedInsert, hitGE,
    Prod.mk.injEq]

/-- C2 witness: on two folders with distinct scores (2 and 3) and
`k = 1`, the heap merge result equals the spec's concatenate-and-sort
reference, and the returned score row is sorted descending. -/
theorem C2_witness :
    (SearchHandler.search_with_ownership exE dSt "q" [2, 4]
        [(2, 1), (4, 1)] 1).1
      = SearchHandler.toResult (specTopKByScore 1
          (SearchHandler.allCandidates exE dSt "q" [2, 4]
            [(2, 1), (4, 1)] 1))
    ∧ ((SearchHandler.search_with_ownership exE dSt "q" [2, 4]
          [(2, 1), (4, 1)] 1).1.1.headI).Sorted (fun a b : ℚ => b ≤ a) := by
  have h := C2_heap_merge_topk exE dSt "q" [2, 4] [(2, 1), (4, 1)] 1
  exact ⟨h.2.2.1 (by rw [allCands_distinct_eval]; decide), h.2.2.2⟩
